import Mathlib

/-!
Verification of the weekly-recipes pipeline of `src/jobs/weekly_recipes/handler.py`.

The Python source is shallowly embedded: strings are modelled as `List Char`
(with `String` wrappers at the boundary), Python integers as `Nat`/`Int` with
floor division where Python uses it.  The handler leans on the CPython 3.11
standard library for URL handling (`urllib.parse`) and calendar arithmetic
(`datetime`); those stdlib routines are embedded faithfully from
CPython 3.11's `Lib/urllib/parse.py` and `Lib/datetime.py` (the pure-Python
reference implementations).  Two stdlib error paths are not modelled because
no claim depends on them: `urlsplit`'s `ValueError` for bracket-mismatched
IPv6 netlocs, and `_checknetloc`'s rejection of some non-ASCII netlocs.
Python's `str.lower` is modelled as ASCII lowercasing (`Char.toLower`),
matching CPython on the ASCII inputs all claims concern.
-/

namespace WeeklyRecipes

/-! ## Character helpers -/

/-- Characters stripped from the front of a URL by `urlsplit`
(`_WHATWG_C0_CONTROL_OR_SPACE`: C0 controls and space, i.e. codepoints ≤ 0x20). -/
def isC0OrSpace (c : Char) : Bool := c.toNat ≤ 32

/-- Characters removed everywhere in a URL by `urlsplit`
(`_UNSAFE_URL_BYTES_TO_REMOVE = ['\t', '\r', '\n']`). -/
def isUnsafeUrlByte (c : Char) : Bool := c == '\t' || c == '\r' || c == '\n'

/-- Python's `c.isascii() and c.isalpha()`, i.e. an ASCII letter
(`A`–`Z` or `a`–`z`). -/
def isAsciiAlpha (c : Char) : Bool :=
  decide ((65 ≤ c.toNat ∧ c.toNat ≤ 90) ∨ (97 ≤ c.toNat ∧ c.toNat ≤ 122))

/-- Membership in CPython's `scheme_chars` (ASCII letters, digits, `+`, `-`, `.`). -/
def schemeChar (c : Char) : Bool :=
  isAsciiAlpha c || decide (48 ≤ c.toNat ∧ c.toNat ≤ 57) ||
  c == '+' || c == '-' || c == '.'

/-- Delimiters ending the netloc in `_splitnetloc` (`'/?#'`). -/
def netlocDelim (c : Char) : Bool := c == '/' || c == '?' || c == '#'

/-- Python `str.lower`, restricted to ASCII (see file comment). -/
def lowerL (l : List Char) : List Char := l.map Char.toLower

theorem toNat_ofNat_valid {n : Nat} (h : n.isValidChar) : (Char.ofNat n).toNat = n := by
  rw [Char.ofNat, dif_pos h]; rfl

theorem toLower_eq_self {c : Char} (h : ¬(65 ≤ c.toNat ∧ c.toNat ≤ 90)) :
    c.toLower = c := by
  simp only [Char.toLower]
  rw [if_neg]
  intro hc
  exact h ⟨hc.1, hc.2⟩

theorem toLower_toNat_of_upper {c : Char} (h : 65 ≤ c.toNat ∧ c.toNat ≤ 90) :
    c.toLower.toNat = c.toNat + 32 := by
  simp only [Char.toLower]
  rw [if_pos ⟨h.1, h.2⟩]
  exact toNat_ofNat_valid (Or.inl (by omega))

theorem toLower_toLower (c : Char) : c.toLower.toLower = c.toLower := by
  by_cases h : 65 ≤ c.toNat ∧ c.toNat ≤ 90
  · have h1 := toLower_toNat_of_upper h
    exact toLower_eq_self (by omega)
  · rw [toLower_eq_self h, toLower_eq_self h]

/-- `toLower` maps nothing new onto a non-lowercase-letter character: if the
image is a character outside `a`–`z`, it was that character already. -/
theorem toLower_eq_special {c d : Char} (hd : ¬(97 ≤ d.toNat ∧ d.toNat ≤ 122)) :
    c.toLower = d → c = d := by
  intro h
  by_cases hu : 65 ≤ c.toNat ∧ c.toNat ≤ 90
  · exfalso
    have h1 := toLower_toNat_of_upper hu
    rw [h] at h1
    exact hd ⟨by omega, by omega⟩
  · rwa [toLower_eq_self hu] at h

theorem lowerL_lowerL (l : List Char) : lowerL (lowerL l) = lowerL l := by
  simp only [lowerL, List.map_map]
  exact List.map_congr_left fun c _ => toLower_toLower c

/-! ## List-of-characters utilities shared by the URL model -/

/-- Remove `\t`, `\r`, `\n` everywhere, then nothing else: the net effect of
the `url.replace(b, "")` loop in `urlsplit`. -/
def removeUnsafe (l : List Char) : List Char := l.filter (fun c => !isUnsafeUrlByte c)

/-- The sanitisation `urlsplit` performs before parsing:
`url.lstrip(_WHATWG_C0_CONTROL_OR_SPACE)` followed by removal of unsafe bytes. -/
def sanitizeUrl (l : List Char) : List Char := removeUnsafe (l.dropWhile isC0OrSpace)

/-- Python `s.rstrip("/")`: drop every trailing `/`. -/
def pyRstripSlash (l : List Char) : List Char := (l.reverse.dropWhile (· == '/')).reverse

/-- Python `s.strip("/")`: drop leading and trailing `/`. -/
def pyStripSlash (l : List Char) : List Char := pyRstripSlash (l.dropWhile (· == '/'))

/-- Python `s.split(sep)` for a one-character separator: split at every
occurrence, keeping empty pieces (`"".split("/") == ['']`). -/
def splitChar (c : Char) : List Char → List (List Char)
  | [] => [[]]
  | x :: xs =>
    if x = c then [] :: splitChar c xs
    else
      match splitChar c xs with
      | [] => [[x]]
      | h :: t => (x :: h) :: t

/-- Python's substring test `pat in l`. -/
def isSubL (pat : List Char) : List Char → Bool
  | [] => pat == []
  | c :: t => pat.isPrefixOf (c :: t) || isSubL pat t

theorem splitChar_ne_nil (c : Char) (l : List Char) : splitChar c l ≠ [] := by
  cases l with
  | nil => simp [splitChar]
  | cons x xs =>
    simp only [splitChar]
    split
    · simp
    · split <;> simp

theorem isPrefixOf_iff (pat l : List Char) :
    pat.isPrefixOf l = true ↔ ∃ t, pat ++ t = l := by
  induction pat generalizing l with
  | nil => simp [List.isPrefixOf]
  | cons p ps ih =>
    cases l with
    | nil => simp [List.isPrefixOf]
    | cons x xs =>
      simp only [List.isPrefixOf, Bool.and_eq_true, beq_iff_eq, ih]
      constructor
      · rintro ⟨rfl, t, rfl⟩
        exact ⟨t, rfl⟩
      · rintro ⟨t, h⟩
        injection h with h1 h2
        exact ⟨h1, t, h2⟩

theorem isSubL_iff (pat l : List Char) :
    isSubL pat l = true ↔ ∃ a b, a ++ pat ++ b = l := by
  induction l with
  | nil =>
    simp only [isSubL, beq_iff_eq]
    constructor
    · rintro rfl
      exact ⟨[], [], rfl⟩
    · rintro ⟨a, b, h⟩
      rcases List.append_eq_nil.mp h with ⟨h1, h2⟩
      exact (List.append_eq_nil.mp h1).2
  | cons x xs ih =>
    simp only [isSubL, Bool.or_eq_true, isPrefixOf_iff, ih]
    constructor
    · rintro (⟨t, ht⟩ | ⟨a, b, h⟩)
      · exact ⟨[], t, by simpa using ht⟩
      · exact ⟨x :: a, b, by simp [h]⟩
    · rintro ⟨a, b, h⟩
      cases a with
      | nil =>
        left
        exact ⟨b, by simpa using h⟩
      | cons a0 as =>
        right
        injection h with h1 h2
        exact ⟨as, b, h2⟩

/-! ## The `urllib.parse` model (CPython 3.11, `Lib/urllib/parse.py`)

`allow_fragments` is always `True` in the handler, so it is inlined;
`_coerce_args` is the identity on `str` inputs and is omitted. -/

/-- Scheme detection step of `urlsplit`: `i = url.find(':')`; a scheme is
recognised when `i > 0`, `url[0]` is an ASCII letter and every character of
`url[:i]` is in `scheme_chars`; the scheme is lowercased and the rest of the
url follows the colon.  Returns `(scheme, rest)`. -/
def detectScheme (u : List Char) : List Char × List Char :=
  match u.dropWhile (· != ':'), u.takeWhile (· != ':') with
  | _ :: t, c :: cs =>
    if isAsciiAlpha c = true ∧ (c :: cs).all schemeChar = true
    then (lowerL (c :: cs), t) else ([], u)
  | _, _ => ([], u)

/-- Netloc extraction: when the url starts with `//`, `_splitnetloc(url, 2)`
takes everything up to the first `/`, `?` or `#` as the netloc.
Returns `(netloc, rest)`. -/
def parseNetloc (u : List Char) : List Char × List Char :=
  if u.take 2 = ['/', '/'] then
    ((u.drop 2).takeWhile (fun c => !netlocDelim c),
     (u.drop 2).dropWhile (fun c => !netlocDelim c))
  else ([], u)

/-- `if '#' in url: url, fragment = url.split('#', 1)`. -/
def splitHash (u : List Char) : List Char × List Char :=
  (u.takeWhile (· != '#'),
   match u.dropWhile (· != '#') with
   | [] => []
   | _ :: t => t)

/-- `if '?' in url: url, query = url.split('?', 1)`. -/
def splitQm (u : List Char) : List Char × List Char :=
  (u.takeWhile (· != '?'),
   match u.dropWhile (· != '?') with
   | [] => []
   | _ :: t => t)

/-- Result of `urlsplit`. -/
structure PySplitResult where
  scheme : List Char
  netloc : List Char
  path : List Char
  query : List Char
  fragment : List Char
  deriving Repr, DecidableEq

/-- `urlsplit(url, scheme=defscheme)`: sanitise, then detect scheme (falling
back to the `defscheme` argument), netloc, fragment and query in that order.
The IPv6 bracket `ValueError` and `_checknetloc` are not modelled (file
comment).  Written as a staged composition (each stage is one statement of
the Python function). -/
def pyUrlsplitStages (defscheme : List Char) (d : List Char × List Char) :
    PySplitResult :=
  ⟨if d.1 = [] then defscheme else d.1,
   (parseNetloc d.2).1,
   (splitQm (splitHash (parseNetloc d.2).2).1).1,
   (splitQm (splitHash (parseNetloc d.2).2).1).2,
   (splitHash (parseNetloc d.2).2).2⟩

def pyUrlsplitD (defscheme : List Char) (url : List Char) : PySplitResult :=
  pyUrlsplitStages defscheme (detectScheme (sanitizeUrl url))

def pyUrlsplit (url : List Char) : PySplitResult := pyUrlsplitD [] url

/-- CPython's `uses_params` scheme list. -/
def usesParams : List (List Char) :=
  ["", "ftp", "hdl", "prospero", "http", "imap", "https", "shttp", "rtsp",
   "rtspu", "sip", "sips", "mms", "sftp", "tel"].map String.data

/-- CPython's `uses_relative` scheme list. -/
def usesRelative : List (List Char) :=
  ["", "ftp", "http", "gopher", "nntp", "imap", "wais", "file", "https",
   "shttp", "mms", "prospero", "rtsp", "rtspu", "sftp", "svn", "svn+ssh",
   "ws", "wss"].map String.data

/-- CPython's `uses_netloc` scheme list. -/
def usesNetloc : List (List Char) :=
  ["", "ftp", "http", "gopher", "nntp", "telnet", "imap", "wais", "file",
   "mms", "https", "shttp", "snews", "prospero", "rtsp", "rtspu", "rsync",
   "svn", "svn+ssh", "sftp", "nfs", "git", "git+ssh", "ws", "wss"].map String.data

/-- `_splitparams(url)`: split `;params` off the last path segment.  Only
called when `';' in url`, which makes the `i = url.find(';')` of the
slash-free branch always succeed; the unreachable `-1` case is mapped to
"no params" here. -/
def pySplitparams (u : List Char) : List Char × List Char :=
  if '/' ∈ u then
    let t := (u.reverse.takeWhile (· != '/')).reverse
    match t.dropWhile (· != ';') with
    | [] => (u, [])
    | _ :: ps => (u.take (u.length - t.length) ++ t.takeWhile (· != ';'), ps)
  else
    match u.dropWhile (· != ';') with
    | [] => (u, [])
    | _ :: ps => (u.takeWhile (· != ';'), ps)

/-- Result of `urlparse`. -/
structure PyParseResult where
  scheme : List Char
  netloc : List Char
  path : List Char
  params : List Char
  query : List Char
  fragment : List Char
  deriving Repr, DecidableEq

/-- `urlparse(url, scheme=defscheme)`: `urlsplit`, then split params off the
path when the scheme uses params and the path contains `;`. -/
def pyParseStage (s : PySplitResult) : PyParseResult :=
  if s.scheme ∈ usesParams ∧ ';' ∈ s.path then
    ⟨s.scheme, s.netloc, (pySplitparams s.path).1, (pySplitparams s.path).2,
     s.query, s.fragment⟩
  else
    ⟨s.scheme, s.netloc, s.path, [], s.query, s.fragment⟩

def pyUrlparseD (defscheme : List Char) (url : List Char) : PyParseResult :=
  pyParseStage (pyUrlsplitD defscheme url)

def pyUrlparse (url : List Char) : PyParseResult := pyUrlparseD [] url

/-- The netloc-insertion step of `urlunsplit`:
`if netloc or (scheme and scheme in uses_netloc and url[:2] != '//'): ...`. -/
def netlocPart (scheme netloc url : List Char) : List Char :=
  if netloc ≠ [] ∨ (scheme ≠ [] ∧ scheme ∈ usesNetloc ∧ url.take 2 ≠ ['/', '/']) then
    '/' :: '/' :: (netloc ++ (if url ≠ [] ∧ url.take 1 ≠ ['/'] then '/' :: url else url))
  else url

/-- `if scheme: url = scheme + ':' + url`. -/
def schemePart (scheme rest : List Char) : List Char :=
  if scheme ≠ [] then scheme ++ ':' :: rest else rest

/-- `if query: url = url + '?' + query`. -/
def withQuery (url query : List Char) : List Char :=
  if query ≠ [] then url ++ '?' :: query else url

/-- `if fragment: url = url + '#' + fragment`. -/
def withFrag (url fragment : List Char) : List Char :=
  if fragment ≠ [] then url ++ '#' :: fragment else url

/-- `urlunsplit((scheme, netloc, url, query, fragment))`. -/
def pyUrlunsplit (scheme netloc url query fragment : List Char) : List Char :=
  withFrag (withQuery (schemePart scheme (netlocPart scheme netloc url)) query) fragment

/-- `urlunparse((scheme, netloc, url, params, query, fragment))`. -/
def pyUrlunparse (scheme netloc url params query fragment : List Char) : List Char :=
  pyUrlunsplit scheme netloc (if params ≠ [] then url ++ ';' :: params else url)
    query fragment

/-! ## `strip_url` from the handler -/

/-- `strip_url` (handler lines 195–202): parse, drop query and fragment, and
strip trailing slashes from the path unless the path is exactly `/`;
`parsed._replace(...)` keeps scheme, netloc and params, and `geturl()` is
`urlunparse`. -/
def stripUrlL (u : List Char) : List Char :=
  pyUrlunparse (pyUrlparse u).scheme (pyUrlparse u).netloc
    (if (pyUrlparse u).path = ['/'] then (pyUrlparse u).path
     else pyRstripSlash (pyUrlparse u).path)
    (pyUrlparse u).params [] []

def strip_url (u : String) : String := ⟨stripUrlL u.data⟩

/-! Golden tests against CPython 3.11 (`urllib.parse` evaluated on the same
inputs; outputs transcribed verbatim). -/

example : pyUrlparse "http://h/a;p?q#f".data =
    ⟨"http".data, "h".data, "/a".data, "p".data, "q".data, "f".data⟩ := by decide

example : strip_url "/a/;b/" = "/a/;b" := by decide
example : strip_url "/a/;b" = "/a;b" := by decide
example : strip_url "http:foo" = "http:///foo" := by decide
example : strip_url "////x" = "//x" := by decide
example : strip_url "//////y" = "////y" := by decide
example : strip_url "////y" = "//y" := by decide
example : strip_url " http://h/a" = "http://h/a" := by decide
example : strip_url "/a " = "/a " := by decide
example : strip_url "HTTP://WWW.X.COM/A/" = "http://WWW.X.COM/A" := by decide
example : strip_url "http://h//" = "http://h" := by decide
example : strip_url "http://h/" = "http://h/" := by decide
example : strip_url "https://www.noracooks.com/vegan-chili/?utm=1#x" =
    "https://www.noracooks.com/vegan-chili" := by decide

/-! ## `is_recipe_url` from the handler -/

/-- `EXCLUDED_PATH_PREFIXES` (handler lines 23–30): excluded first path
segments. -/
def excludedFirstSegs : List (List Char) :=
  ["category", "tag", "page", "wp-content", "wp-json", "author"].map String.data

/-- `EXCLUDED_PATH_FRAGMENTS` (handler lines 32–41): substrings that rule a
path out.  Python iterates over a `set`; only the disjunction of the
membership tests is observable, modelled with `List.any`. -/
def excludedPathFrags : List (List Char) :=
  ["privacy", "terms", "contact", "about", "disclaimer", "shop", "store",
   "print"].map String.data

/-- The allowed hosts `{"www.noracooks.com", "noracooks.com"}`. -/
def allowedHosts : List (List Char) :=
  ["www.noracooks.com", "noracooks.com"].map String.data

/-- `is_recipe_url` (handler lines 168–192), translated clause by clause. -/
def isRecipeUrlL (u : List Char) : Bool :=
  let parsed := pyUrlparse u
  if ¬(parsed.scheme = "http".data ∨ parsed.scheme = "https".data) then false
  else
    let host := lowerL parsed.netloc
    if host ∉ allowedHosts then false
    else
      let path := pyStripSlash parsed.path
      if path = [] then false
      else
        let segments := (splitChar '/' path).filter (· ≠ [])
        if segments = [] then false
        else if lowerL (segments.headD []) ∈ excludedFirstSegs then false
        else if excludedPathFrags.any (fun f => isSubL f (lowerL path)) then false
        else true

def is_recipe_url (u : String) : Bool := isRecipeUrlL u.data

example : is_recipe_url "https://www.noracooks.com/vegan-chili" = true := by decide
example : is_recipe_url "http://noracooks.com/easy-soup" = true := by decide
example : is_recipe_url "HTTPS://WWW.NORACOOKS.COM/Easy-Soup" = true := by decide
example : is_recipe_url "https://www.noracooks.com/category/soups" = false := by decide
example : is_recipe_url "https://www.noracooks.com/about-me" = false := by decide
example : is_recipe_url "https://www.noracooks.com/" = false := by decide
example : is_recipe_url "https://other.com/vegan-chili" = false := by decide
example : is_recipe_url "ftp://www.noracooks.com/vegan-chili" = false := by decide
example : is_recipe_url "https://www.noracooks.com/how-to-print-recipes" = false := by
  decide

/-! ## `urljoin` (CPython 3.11) -/

/-- `segments[1:-1] = filter(None, segments[1:-1])`: drop empty pieces from
everything strictly between the first and last element. -/
def filterMiddle (l : List (List Char)) : List (List Char) :=
  match l with
  | [] => []
  | [x] => [x]
  | x :: xs =>
    match xs.getLast? with
    | none => [x]
    | some lastSeg => x :: (xs.dropLast.filter (· ≠ []) ++ [lastSeg])

/-- The `..`/`.` resolution loop of `urljoin` (`resolved_path`). -/
def resolveSegs (segs : List (List Char)) : List (List Char) :=
  segs.foldl
    (fun acc seg =>
      if seg = "..".data then acc.dropLast
      else if seg = ".".data then acc
      else acc ++ [seg])
    []

/-- `urljoin(base, url)` from CPython 3.11, with `urlparse`/`urlunparse` as
modelled above. -/
def pyUrljoin (base url : List Char) : List Char :=
  if base = [] then url
  else if url = [] then base
  else
    let b := pyUrlparseD [] base
    let r := pyUrlparseD b.scheme url
    if r.scheme ≠ b.scheme ∨ r.scheme ∉ usesRelative then url
    else
      let step : List Char × Option (List Char) :=
        if r.scheme ∈ usesNetloc then
          if r.netloc ≠ [] then
            ([], some (pyUrlunparse r.scheme r.netloc r.path r.params r.query r.fragment))
          else (b.netloc, none)
        else (r.netloc, none)
      match step.2 with
      | some out => out
      | none =>
        let netloc := step.1
        if r.path = [] ∧ r.params = [] then
          let query := if r.query = [] then b.query else r.query
          pyUrlunparse r.scheme netloc b.path b.params query r.fragment
        else
          let baseParts₀ := splitChar '/' b.path
          let baseParts :=
            if baseParts₀.getLast? ≠ some [] then baseParts₀.dropLast else baseParts₀
          let segments :=
            if r.path.take 1 = ['/'] then splitChar '/' r.path
            else filterMiddle (baseParts ++ splitChar '/' r.path)
          let resolved :=
            match segments.getLast? with
            | some s => if s = ".".data ∨ s = "..".data
                        then resolveSegs segments ++ [[]]
                        else resolveSegs segments
            | none => resolveSegs segments
          let joined := List.intercalate ['/'] resolved
          let path := if joined = [] then ['/'] else joined
          pyUrlunparse r.scheme netloc path r.params r.query r.fragment

def pyUrljoinS (base url : String) : String := ⟨pyUrljoin base.data url.data⟩

/-! Golden tests transcribed from CPython 3.11 `urljoin`. -/

example : pyUrljoinS "https://www.noracooks.com/category/meal-type/dinner/"
    "/recipes/vegan-chili/" = "https://www.noracooks.com/recipes/vegan-chili/" := by decide
example : pyUrljoinS "https://www.noracooks.com/category/meal-type/dinner/"
    "vegan-chili" = "https://www.noracooks.com/category/meal-type/dinner/vegan-chili" := by
  decide
example : pyUrljoinS "https://www.noracooks.com/category/meal-type/dinner/"
    "../soup/" = "https://www.noracooks.com/category/meal-type/soup/" := by decide
example : pyUrljoinS "https://www.noracooks.com/category/meal-type/dinner/"
    "https://other.com/x" = "https://other.com/x" := by decide
example : pyUrljoinS "https://www.noracooks.com/category/meal-type/dinner/"
    "//cdn.x.com/y" = "https://cdn.x.com/y" := by decide
example : pyUrljoinS "https://www.noracooks.com/category/meal-type/dinner/"
    "?page=2" = "https://www.noracooks.com/category/meal-type/dinner/?page=2" := by decide
example : pyUrljoinS "https://www.noracooks.com/category/meal-type/dinner/"
    "#top" = "https://www.noracooks.com/category/meal-type/dinner/#top" := by decide
example : pyUrljoinS "https://www.noracooks.com/category/meal-type/dinner/"
    "/a/b/../c" = "https://www.noracooks.com/a/c" := by decide

/-! ## The `datetime` model (CPython 3.11, `Lib/datetime.py`)

Only the fields and operations the handler touches: a wall-clock instant and
`isocalendar()`.  Python's `//` and `%` are floor division and floor modulus,
i.e. `Int.fdiv` and `Int.fmod`. -/

/-- A wall-clock instant as the handler sees it (`datetime.now(tz)`); the
time-of-day fields do not influence `isocalendar` but make two distinct
instants of the same day distinct values. -/
structure PyDateTime where
  year : Nat
  month : Nat
  day : Nat
  hour : Nat
  minute : Nat
  second : Nat
  deriving Repr, DecidableEq

/-- `_is_leap(year)`. -/
def isLeap (year : Int) : Bool :=
  year.fmod 4 == 0 && (year.fmod 100 != 0 || year.fmod 400 == 0)

/-- `_days_before_year(year)`. -/
def daysBeforeYear (year : Int) : Int :=
  let y := year - 1
  y * 365 + y.fdiv 4 - y.fdiv 100 + y.fdiv 400

/-- `_DAYS_IN_MONTH` (index 0 is the `-1` placeholder). -/
def DAYS_IN_MONTH : List Int := [-1, 31, 28, 31, 30, 31, 30, 31, 31, 30, 31, 30, 31]

/-- `_DAYS_BEFORE_MONTH` (index 0 is the `-1` placeholder). -/
def DAYS_BEFORE_MONTH : List Int :=
  [-1, 0, 31, 59, 90, 120, 151, 181, 212, 243, 273, 304, 334]

/-- `_days_before_month(year, month)`. -/
def daysBeforeMonth (year : Int) (month : Nat) : Int :=
  DAYS_BEFORE_MONTH.getD month 0 + (if month > 2 ∧ isLeap year then 1 else 0)

/-- `_ymd2ord(year, month, day)`. -/
def ymd2ord (year : Int) (month day : Nat) : Int :=
  daysBeforeYear year + daysBeforeMonth year month + day

/-- `_isoweek1monday(year)`. -/
def isoweek1monday (year : Int) : Int :=
  let firstday := ymd2ord year 1 1
  let firstweekday := (firstday + 6).fmod 7
  let week1monday := firstday - firstweekday
  if firstweekday > 3 then week1monday + 7 else week1monday

/-- `date.isocalendar()` as `(ISO year, ISO week, ISO weekday)`. -/
def isocalendar (d : PyDateTime) : Int × Int × Int :=
  let year : Int := d.year
  let week1monday := isoweek1monday year
  let today := ymd2ord year d.month d.day
  let week := (today - week1monday).fdiv 7
  let day := (today - week1monday).fmod 7
  if week < 0 then
    let year := year - 1
    let w1m := isoweek1monday year
    (year, (today - w1m).fdiv 7 + 1, (today - w1m).fmod 7 + 1)
  else if week ≥ 52 then
    if today ≥ isoweek1monday (year + 1) then (year + 1, 1, day + 1)
    else (year, week + 1, day + 1)
  else (year, week + 1, day + 1)

/-! Golden tests transcribed from CPython 3.11 `datetime.date.isocalendar()`. -/

example : isocalendar ⟨2026, 10, 12, 9, 0, 0⟩ = (2026, 42, 1) := by decide
example : isocalendar ⟨2026, 10, 14, 23, 59, 59⟩ = (2026, 42, 3) := by decide
example : isocalendar ⟨2026, 1, 1, 0, 0, 0⟩ = (2026, 1, 4) := by decide
example : isocalendar ⟨2027, 1, 1, 0, 0, 0⟩ = (2026, 53, 5) := by decide
example : isocalendar ⟨2025, 12, 29, 0, 0, 0⟩ = (2026, 1, 1) := by decide
example : isocalendar ⟨2021, 1, 1, 0, 0, 0⟩ = (2020, 53, 5) := by decide
example : isocalendar ⟨2022, 1, 2, 0, 0, 0⟩ = (2021, 52, 7) := by decide

/-! ## Recipes, weekly selection, deduplication -/

/-- The `{"title": ..., "url": ...}` dictionaries the handler builds. -/
structure Recipe where
  title : String
  url : String
  deriving Repr, DecidableEq

/-- Python `str.lower` on a whole string (ASCII; see file comment). -/
def pyLowerS (s : String) : String := ⟨lowerL s.data⟩

/-- Modelled from the spec: `random.Random(seed)` — "seeding a pseudo-random
generator with a string derived solely from the ISO year and ISO week"
(spec §4.6).  The stdlib generator is outside the repository; per the spec's
design notes only per-implementation determinism matters, so the seed string
is folded into a 64-bit state for a linear-congruential generator. -/
def seedOfString (s : String) : Nat :=
  s.data.foldl (fun a c => (a * 31 + c.toNat) % 2 ^ 64) 7

/-- One step of the modelled generator (64-bit LCG). -/
def lcgNext (s : Nat) : Nat :=
  (6364136223846793005 * s + 1442695040888963407) % 2 ^ 64

/-- Modelled from the spec: the selection loop of
`random.Random(seed).sample(population, k)` — "a seeded random sample
without replacement over the input list" (spec §4.6).  Draws an index from
the current state, takes that element, removes it from the pool and repeats
`k` times (stopping early on an empty pool; `sample` itself is only reached
with `k < len(population)`). -/
def sampleGo {α : Type} : Nat → Nat → List α → List α
  | _, 0, _ => []
  | _, _ + 1, [] => []
  | s, k + 1, p :: ps =>
    let s' := lcgNext s
    let i := s' % (ps.length + 1)
    (p :: ps).getD i p :: sampleGo s' k ((p :: ps).eraseIdx i)

/-- Modelled from the spec: `random.Random(seed).sample(l, k)`. -/
def pySample {α : Type} (seed : String) (l : List α) (k : Nat) : List α :=
  sampleGo (seedOfString seed) k l

/-- `pick_weekly_recipes` (handler lines 218–227): seed a generator with
`f"{year}-W{week}"` from `now.isocalendar()`, return the list unchanged when
it has at most `count` elements, otherwise a seeded sample of `count`. -/
def pick_weekly_recipes (recipes : List Recipe) (count : Nat) (now : PyDateTime) :
    List Recipe :=
  let yw := isocalendar now
  let seed := toString yw.1 ++ "-W" ++ toString yw.2.1
  if recipes.length ≤ count then recipes
  else pySample seed recipes count

/-- The loop body of `dedupe_recipes` with the running `seen` set (a Python
`set` observed only through membership, modelled as a list). -/
def dedupeGo (seen : List String) : List Recipe → List Recipe
  | [] => []
  | r :: rs =>
    let url := pyLowerS r.url
    if url ∈ seen then dedupeGo seen rs
    else r :: dedupeGo (url :: seen) rs

/-- `dedupe_recipes` (handler lines 205–215). -/
def dedupe_recipes (recipes : List Recipe) : List Recipe := dedupeGo [] recipes

/-! ## Title selection -/

/-- Python whitespace for `str.split()`/`str.strip()` (ASCII; see file
comment). -/
def isPySpace (c : Char) : Bool :=
  c == ' ' || c == '\t' || c == '\n' || c == '\r' || c == '\x0b' || c == '\x0c'

/-- Python `s.split()`: split on whitespace runs, dropping empty pieces. -/
def splitWsAux : List Char → List Char → List (List Char)
  | acc, [] => if acc = [] then [] else [acc.reverse]
  | acc, c :: t =>
    if isPySpace c then
      if acc = [] then splitWsAux [] t else acc.reverse :: splitWsAux [] t
    else splitWsAux (c :: acc) t

def pySplitWs (l : List Char) : List (List Char) := splitWsAux [] l

/-- Python `s.strip()` with no argument: strip whitespace from both ends. -/
def pyStripWs (l : List Char) : List Char :=
  ((l.dropWhile isPySpace).reverse.dropWhile isPySpace).reverse

/-- `" ".join(candidate.split()).strip()` from `pick_title`. -/
def pyCleanWs (s : String) : String :=
  ⟨pyStripWs (List.intercalate [' '] (pySplitWs s.data))⟩

example : pyCleanWs "  Best   Tacos\t Ever " = "Best Tacos Ever" := by decide
example : pyCleanWs "   " = "" := by decide

/-- One anchor as collected by the extractor: the `href`/`title`/`aria-label`
attributes (absent and valueless attributes both surface as `None` through
`attr_map.get`) and the accumulated text. -/
structure AnchorRecord where
  href : Option String
  title_attr : Option String
  aria_label : Option String
  text : String
  deriving Repr, DecidableEq

/-- The candidate scan of `pick_title` (handler lines 156–165): skip falsy
candidates, clean the rest, accept the first whose cleaned length is in
`[4, 120]`. -/
def pickFirstTitle : List (Option String) → Option String
  | [] => none
  | none :: rest => pickFirstTitle rest
  | some c :: rest =>
    if c = "" then pickFirstTitle rest
    else
      let cleaned := pyCleanWs c
      if 4 ≤ cleaned.length ∧ cleaned.length ≤ 120 then some cleaned
      else pickFirstTitle rest

/-- `pick_title(anchor)`: candidates are visible text, `aria_label`,
`title_attr`, in that order. -/
def pick_title (anchor : AnchorRecord) : Option String :=
  pickFirstTitle [some anchor.text, anchor.aria_label, anchor.title_attr]

example : pick_title ⟨some "/x", some "Best Tacos Ever", none, "  "⟩ =
    some "Best Tacos Ever" := by decide
example : pick_title ⟨some "/x", none, none, "abc"⟩ = none := by decide

/-! ## The anchor extractor -/

/-- The markup tokenisation events `html.parser.HTMLParser` feeds to
`AnchorExtractor`.  The tokeniser itself is stdlib and outside the
repository; per spec §4.1/§9 the extractor is "a pure fold over parse
events", which is what is modelled.  Attribute values may be `None`
(valueless attributes). -/
inductive ParseEvent where
  | starttag (tag : String) (attrs : List (String × Option String))
  | data (d : String)
  | endtag (tag : String)
  deriving Repr, DecidableEq

/-- The `_current` dictionary built in `handle_starttag`. -/
structure CurAnchor where
  href : Option String
  title_attr : Option String
  aria_label : Option String
  deriving Repr, DecidableEq

/-- The extractor's mutable state: `self.anchors`, `self._current`,
`self._text_parts`. -/
structure ExtState where
  anchors : List AnchorRecord
  current : Option CurAnchor
  textParts : List String
  deriving Repr, DecidableEq

/-- `{key: value for key, value in attrs}.get(k)`: the last binding of a key
wins; a missing key gives `None`, as does a `None` value. -/
def attrMapGet (attrs : List (String × Option String)) (k : String) : Option String :=
  match attrs.reverse.find? (fun p => p.1 == k) with
  | none => none
  | some p => p.2

/-- `handle_starttag` (handler lines 95–104). -/
def handleStart (st : ExtState) (tag : String) (attrs : List (String × Option String)) :
    ExtState :=
  if tag ≠ "a" then st
  else
    { st with
      current := some ⟨attrMapGet attrs "href", attrMapGet attrs "title",
                       attrMapGet attrs "aria-label"⟩
      textParts := [] }

/-- `handle_data` (handler lines 106–108). -/
def handleData (st : ExtState) (d : String) : ExtState :=
  match st.current with
  | none => st
  | some _ => { st with textParts := st.textParts ++ [d] }

/-- The endtag text cleanup:
`" ".join(parts).strip()` then `" ".join(text.split())`. -/
def anchorText (parts : List String) : String :=
  let text := pyStripWs (List.intercalate [' '] (parts.map String.data))
  ⟨List.intercalate [' '] (pySplitWs text)⟩

/-- `handle_endtag` (handler lines 110–118). -/
def handleEnd (st : ExtState) (tag : String) : ExtState :=
  if tag ≠ "a" then st
  else
    match st.current with
    | none => st
    | some cur =>
      { anchors := st.anchors ++
          [⟨cur.href, cur.title_attr, cur.aria_label, anchorText st.textParts⟩]
        current := none
        textParts := [] }

/-- One dispatched parser callback. -/
def extStep (st : ExtState) : ParseEvent → ExtState
  | .starttag tag attrs => handleStart st tag attrs
  | .data d => handleData st d
  | .endtag tag => handleEnd st tag

def initExtState : ExtState := ⟨[], none, []⟩

/-- `parser.feed(html); parser.anchors` for a tokenised document. -/
def feedEvents (events : List ParseEvent) : List AnchorRecord :=
  (events.foldl extStep initExtState).anchors

/-! ## `extract_recipes` -/

/-- The per-anchor loop of `extract_recipes` (handler lines 136–151):
skip falsy `href` (`None` or `""`), resolve against the base URL, normalize,
classify, pick a title, and collect `{"title": ..., "url": ...}`. -/
def processAnchors (base : String) : List AnchorRecord → List Recipe
  | [] => []
  | anchor :: rest =>
    match anchor.href with
    | none => processAnchors base rest
    | some href =>
      if href = "" then processAnchors base rest
      else
        let url := strip_url (pyUrljoinS base href)
        if ¬is_recipe_url url then processAnchors base rest
        else
          match pick_title anchor with
          | none => processAnchors base rest
          | some title => ⟨title, url⟩ :: processAnchors base rest

/-- `extract_recipes(html, base_url)` on a tokenised document. -/
def extract_recipes (events : List ParseEvent) (base : String) : List Recipe :=
  processAnchors base (feedEvents events)

/-- Spec scenario 1: `<a href="/recipes/vegan-chili/">Vegan Chili</a>` on the
dinner category page. -/
example :
    extract_recipes
      [.starttag "a" [("href", some "/recipes/vegan-chili/")],
       .data "Vegan Chili", .endtag "a"]
      "https://www.noracooks.com/category/meal-type/dinner/" =
    [⟨"Vegan Chili", "https://www.noracooks.com/recipes/vegan-chili"⟩] := by decide

/-! ## Formatting and the entry point -/

/-- The first entry of `RECIPE_PAGES` (handler lines 18–21). -/
def dinnerPage : String := "https://www.noracooks.com/category/meal-type/dinner/"

/-- The second entry of `RECIPE_PAGES`. -/
def lunchPage : String := "https://www.noracooks.com/category/meal-type/lunch/"

/-- `RECIPE_PAGES` (handler lines 18–21). -/
def RECIPE_PAGES : List String := [dinnerPage, lunchPage]

/-- `%b` month abbreviations for `strftime`. -/
def monthAbbr (m : Nat) : String :=
  ["Jan", "Feb", "Mar", "Apr", "May", "Jun", "Jul", "Aug", "Sep", "Oct",
   "Nov", "Dec"].getD (m - 1) ""

/-- `%d`: zero-padded day. -/
def pad2 (n : Nat) : String := if n < 10 then "0" ++ toString n else toString n

/-- `est_now.strftime("Week of %b %d, %Y")`. -/
def weekLabelOf (d : PyDateTime) : String :=
  "Week of " ++ monthAbbr d.month ++ " " ++ pad2 d.day ++ ", " ++ toString d.year

example : weekLabelOf ⟨2026, 10, 12, 9, 0, 0⟩ = "Week of Oct 12, 2026" := by decide
example : weekLabelOf ⟨2026, 1, 3, 9, 0, 0⟩ = "Week of Jan 03, 2026" := by decide

/-- `format_recipes` (handler lines 230–241). -/
def format_recipes (recipes : List Recipe) (weekLabel : String) : String :=
  let entryLines :=
    (List.enumFrom 1 recipes).foldr
      (fun p acc => (toString p.1 ++ ". " ++ p.2.title) :: ("   " ++ p.2.url) :: "" :: acc)
      []
  let lines :=
    ("Weekly vegan recipe picks (" ++ weekLabel ++ ")") :: "" :: entryLines
      ++ ["Sources:"] ++ RECIPE_PAGES.map (fun u => "- " ++ u)
  String.intercalate "\n" lines

/-- The dictionary `main` returns. -/
inductive MainResult where
  | success (recipe_count : Nat)
  | error (message : String)
  deriving Repr, DecidableEq

/-- The single `send_email(sender, recipient, subject, body)` call `main`
makes after the config check. -/
structure SentEmail where
  sender : String
  recipient : String
  subject : String
  body : String
  deriving Repr, DecidableEq

/-- Python truthiness of an optional string (`not all([recipient, sender])`):
`None` and `""` are falsy. -/
def pyTruthy : Option String → Bool
  | none => false
  | some s => s ≠ ""

/-- The body used when no recipes were found. -/
def noRecipesBody : String :=
  "No recipes were found this week. " ++
  "Please check the source pages or parser rules.\n\n" ++
  "Sources:\n" ++
  "- " ++ RECIPE_PAGES.getD 0 "" ++ "\n" ++
  "- " ++ RECIPE_PAGES.getD 1 "" ++ "\n"

/-- `main(event, context)` (handler lines 44–85).  External collaborators are
parameters: `fetch` covers `fetch_url` plus tokenisation, with `Except.error`
standing for any exception raised while fetching or parsing one source page
(the `try`/`except` body); `sendOk` is the outcome of `send_email`.  The
result is the returned dictionary plus the email handed to SES (if any). -/
def mainJob (recipient sender : Option String)
    (fetch : String → Except String (List ParseEvent))
    (now : PyDateTime) (sendOk : Bool) : MainResult × Option SentEmail :=
  if ¬(pyTruthy recipient ∧ pyTruthy sender) then
    (.error "Missing config", none)
  else
    let recipes := RECIPE_PAGES.foldl
      (fun acc url =>
        match fetch url with
        | .error _ => acc
        | .ok events => acc ++ extract_recipes events url)
      []
    let recipes := dedupe_recipes recipes
    let weekLabel := weekLabelOf now
    let sb :=
      if recipes = [] then
        ("Weekly Vegan Recipes - " ++ weekLabel ++ " - No recipes found",
         noRecipesBody)
      else
        ("Weekly Vegan Recipes - " ++ weekLabel,
         format_recipes (pick_weekly_recipes recipes 5 now) weekLabel)
    let email : SentEmail := ⟨sender.getD "", recipient.getD "", sb.1, sb.2⟩
    if sendOk then (.success recipes.length, some email)
    else (.error "Failed to send email", some email)

/-! ## Helper lemmas for the claims -/

theorem sampleGo_length {α : Type} (k : Nat) :
    ∀ (s : Nat) (l : List α), (sampleGo s k l).length = min k l.length := by
  induction k with
  | zero => intro s l; simp [sampleGo]
  | succ k ih =>
    intro s l
    cases l with
    | nil => simp [sampleGo]
    | cons p ps =>
      have hi : lcgNext s % (ps.length + 1) < ps.length + 1 :=
        Nat.mod_lt _ (Nat.succ_pos _)
      simp only [sampleGo, List.length_cons, ih]
      rw [List.length_eraseIdx_of_lt (by simpa using hi)]
      simp [Nat.succ_min_succ]

/-- The deduplication contract as the spec states it: keep a recipe exactly
when no earlier recipe carries the same case-insensitively-compared URL key;
`prevKeys` accumulates the keys of all recipes already scanned. -/
def specFirstOccur (prevKeys : List String) : List Recipe → List Recipe
  | [] => []
  | r :: rs =>
    if pyLowerS r.url ∈ prevKeys then specFirstOccur (pyLowerS r.url :: prevKeys) rs
    else r :: specFirstOccur (pyLowerS r.url :: prevKeys) rs

theorem dedupeGo_eq_spec (l : List Recipe) :
    ∀ (seen prev : List String), (∀ k, k ∈ seen ↔ k ∈ prev) →
      dedupeGo seen l = specFirstOccur prev l := by
  induction l with
  | nil => intro seen prev _; rfl
  | cons r rs ih =>
    intro seen prev h
    simp only [dedupeGo, specFirstOccur]
    by_cases hk : pyLowerS r.url ∈ seen
    · rw [if_pos hk, if_pos ((h _).mp hk)]
      refine ih _ _ fun k => ⟨fun hs => List.mem_cons_of_mem _ ((h k).mp hs), ?_⟩
      intro hs
      rcases List.mem_cons.mp hs with rfl | hs
      · exact hk
      · exact (h k).mpr hs
    · rw [if_neg hk, if_neg (fun hc => hk ((h _).mpr hc))]
      refine congrArg _ (ih _ _ fun k => ?_)
      simp only [List.mem_cons]
      exact ⟨fun hs => hs.imp id (h k).mp, fun hs => hs.imp id (h k).mpr⟩

theorem dedupeGo_sublist (l : List Recipe) :
    ∀ seen, (dedupeGo seen l).Sublist l := by
  induction l with
  | nil => intro seen; simp [dedupeGo]
  | cons r rs ih =>
    intro seen
    simp only [dedupeGo]
    split
    · exact (ih seen).cons r
    · exact (ih _).cons₂ r

theorem dedupeGo_keys_nodup (l : List Recipe) :
    ∀ seen, ((dedupeGo seen l).map (fun r => pyLowerS r.url)).Nodup ∧
      ∀ k ∈ (dedupeGo seen l).map (fun r => pyLowerS r.url), k ∉ seen := by
  induction l with
  | nil => intro seen; simp [dedupeGo]
  | cons r rs ih =>
    intro seen
    simp only [dedupeGo]
    split
    · exact ⟨(ih seen).1, (ih seen).2⟩
    · rename_i hk
      obtain ⟨hnd, hnotin⟩ := ih (pyLowerS r.url :: seen)
      simp only [List.map_cons, List.nodup_cons]
      refine ⟨⟨fun hmem => ?_, hnd⟩, ?_⟩
      · exact hnotin _ hmem (List.mem_cons_self _ _)
      · intro k hk'
        rcases List.mem_cons.mp hk' with rfl | hk'
        · exact hk
        · exact fun hs => hnotin _ hk' (List.mem_cons_of_mem _ hs)

/-- The title-selection contract as the spec states it: clean every candidate
and return the first cleaned candidate of length in `[4, 120]`. -/
def specTitleOf (anchor : AnchorRecord) : Option String :=
  [some anchor.text, anchor.aria_label, anchor.title_attr].findSome?
    (fun c => c.bind fun s =>
      let cleaned := pyCleanWs s
      if 4 ≤ cleaned.length ∧ cleaned.length ≤ 120 then some cleaned else none)

theorem pickFirstTitle_eq_findSome (l : List (Option String)) :
    pickFirstTitle l = l.findSome?
      (fun c => c.bind fun s =>
        let cleaned := pyCleanWs s
        if 4 ≤ cleaned.length ∧ cleaned.length ≤ 120 then some cleaned else none) := by
  induction l with
  | nil => rfl
  | cons c rest ih =>
    cases c with
    | none => simpa [pickFirstTitle, List.findSome?] using ih
    | some s =>
      by_cases hs : s = ""
      · subst hs
        simpa [pickFirstTitle, List.findSome?, pyCleanWs, pySplitWs, splitWsAux,
          pyStripWs, List.intercalate] using ih
      · simp only [pickFirstTitle, if_neg hs, List.findSome?, Option.some_bind]
        split <;> simp_all

theorem handleStart_anchors (st : ExtState) (tag : String)
    (attrs : List (String × Option String)) :
    (handleStart st tag attrs).anchors = st.anchors := by
  unfold handleStart
  split <;> rfl

theorem noEndA_fold (l : List ParseEvent) :
    ∀ st : ExtState, (∀ e ∈ l, e ≠ .endtag "a") →
      (l.foldl extStep st).anchors = st.anchors := by
  induction l with
  | nil => intro st _; rfl
  | cons e t ih =>
    intro st h
    rw [List.foldl_cons, ih _ fun x hx => h x (List.mem_cons_of_mem _ hx)]
    cases e with
    | starttag tag attrs => exact handleStart_anchors st tag attrs
    | data d => unfold extStep handleData; cases st.current <;> rfl
    | endtag tag =>
      have htag : tag ≠ "a" := by
        intro hc
        exact h _ (List.mem_cons_self _ _) (by rw [hc])
      show (handleEnd st tag).anchors = st.anchors
      unfold handleEnd
      rw [if_pos htag]

/-! ## Claims -/

/-- C1.  For every recipe list, every count, and every pair of reference
instants `A` and `B` that fall in the same ISO calendar year and ISO week
number, `pick_weekly_recipes(list, count, A)` equals
`pick_weekly_recipes(list, count, B)`: the generator is seeded solely with
the string `"<year>-W<week>"` derived from the instant. -/
theorem c1_weekly_determinism (recipes : List Recipe) (count : Nat)
    (A B : PyDateTime)
    (hy : (isocalendar A).1 = (isocalendar B).1)
    (hw : (isocalendar A).2.1 = (isocalendar B).2.1) :
    pick_weekly_recipes recipes count A = pick_weekly_recipes recipes count B := by
  show
    (if recipes.length ≤ count then recipes
     else pySample (toString (isocalendar A).1 ++ "-W" ++ toString (isocalendar A).2.1)
       recipes count) =
    (if recipes.length ≤ count then recipes
     else pySample (toString (isocalendar B).1 ++ "-W" ++ toString (isocalendar B).2.1)
       recipes count)
  rw [hy, hw]

theorem c1_weekly_determinism_witness :
    (isocalendar ⟨2026, 10, 12, 9, 0, 0⟩).1 = (isocalendar ⟨2026, 10, 14, 23, 59, 59⟩).1 ∧
    (isocalendar ⟨2026, 10, 12, 9, 0, 0⟩).2.1 =
      (isocalendar ⟨2026, 10, 14, 23, 59, 59⟩).2.1 ∧
    pick_weekly_recipes
      [⟨"Chili", "u1"⟩, ⟨"Soup", "u2"⟩, ⟨"Tacos", "u3"⟩, ⟨"Curry", "u4"⟩,
       ⟨"Stew", "u5"⟩, ⟨"Pasta", "u6"⟩, ⟨"Salad", "u7"⟩] 5 ⟨2026, 10, 12, 9, 0, 0⟩ =
    pick_weekly_recipes
      [⟨"Chili", "u1"⟩, ⟨"Soup", "u2"⟩, ⟨"Tacos", "u3"⟩, ⟨"Curry", "u4"⟩,
       ⟨"Stew", "u5"⟩, ⟨"Pasta", "u6"⟩, ⟨"Salad", "u7"⟩] 5 ⟨2026, 10, 14, 23, 59, 59⟩ :=
  ⟨by decide, by decide,
   c1_weekly_determinism _ 5 _ _ (by decide) (by decide)⟩

/-- C3.  `pick_weekly_recipes` returns exactly `min(count, len(list))`
elements, and returns the input list itself, unchanged, whenever
`len(list) ≤ count`. -/
theorem c3_pick_count (recipes : List Recipe) (count : Nat) (now : PyDateTime) :
    (pick_weekly_recipes recipes count now).length = min count recipes.length ∧
    (recipes.length ≤ count → pick_weekly_recipes recipes count now = recipes) := by
  unfold pick_weekly_recipes
  by_cases h : recipes.length ≤ count
  · simp [h, Nat.min_eq_right h]
  · refine ⟨?_, fun hc => absurd hc h⟩
    simp only [if_neg h, pySample, sampleGo_length]

theorem c3_pick_count_witness :
    pick_weekly_recipes [⟨"A", "a"⟩, ⟨"B", "b"⟩, ⟨"C", "c"⟩] 5 ⟨2026, 10, 12, 9, 0, 0⟩ =
      [⟨"A", "a"⟩, ⟨"B", "b"⟩, ⟨"C", "c"⟩] ∧
    (pick_weekly_recipes
      [⟨"A", "a"⟩, ⟨"B", "b"⟩, ⟨"C", "c"⟩, ⟨"D", "d"⟩, ⟨"E", "e"⟩, ⟨"F", "f"⟩,
       ⟨"G", "g"⟩] 2 ⟨2026, 10, 12, 9, 0, 0⟩).length = 2 :=
  ⟨(c3_pick_count _ 5 _).2 (by decide),
   ((c3_pick_count _ 2 _).1).trans (by decide)⟩

/-- C4.  `dedupe_recipes` returns the subsequence keeping exactly the first
occurrence of each URL key compared case-insensitively, preserving the
original relative order; the output has at most one recipe per lowercased
URL and its length is at most the number of distinct lowercased URLs in the
input. -/
theorem c4_dedupe_first_occurrence (l : List Recipe) :
    dedupe_recipes l = specFirstOccur [] l ∧
    (dedupe_recipes l).Sublist l ∧
    ((dedupe_recipes l).map (fun r => pyLowerS r.url)).Nodup ∧
    (dedupe_recipes l).length ≤ (l.map (fun r => pyLowerS r.url)).toFinset.card := by
  refine ⟨dedupeGo_eq_spec l [] [] (fun k => Iff.rfl), dedupeGo_sublist l [],
    (dedupeGo_keys_nodup l []).1, ?_⟩
  have hnd : ((dedupe_recipes l).map (fun r => pyLowerS r.url)).Nodup :=
    (dedupeGo_keys_nodup l []).1
  have hsl : (dedupe_recipes l).Sublist l := dedupeGo_sublist l []
  have hsub : (dedupe_recipes l).map (fun r => pyLowerS r.url) ⊆
      l.map (fun r => pyLowerS r.url) :=
    fun k hk => (List.map_subset _ hsl.subset) hk
  calc (dedupe_recipes l).length
      = ((dedupe_recipes l).map (fun r => pyLowerS r.url)).length :=
        (List.length_map _ _).symm
    _ = ((dedupe_recipes l).map (fun r => pyLowerS r.url)).toFinset.card :=
        (List.toFinset_card_of_nodup hnd).symm
    _ ≤ (l.map (fun r => pyLowerS r.url)).toFinset.card :=
        Finset.card_le_card fun k hk =>
          List.mem_toFinset.mpr (hsub (List.mem_toFinset.mp hk))

/-- C5.  `pick_title` evaluates visible text, then `aria_label`, then
`title_attr`, cleans each candidate and returns the first whose cleaned
length lies in `[4, 120]` (or `none`); in particular a whitespace-only text
with absent `aria-label` and title attribute `"Best Tacos Ever"` yields
`"Best Tacos Ever"`. -/
theorem c5_pick_title_contract :
    (∀ anchor : AnchorRecord, pick_title anchor = specTitleOf anchor) ∧
    pick_title ⟨some "/x", some "Best Tacos Ever", none, "  "⟩ =
      some "Best Tacos Ever" := by
  refine ⟨fun anchor => pickFirstTitle_eq_findSome _, by decide⟩

/-- C8 (counterexample).  A document that ends while an `<a>` element is
still open — `<a href="/recipes/vegan-chili/">Hello` — produces no
`AnchorRecord` at all, not a record closed at end-of-document. -/
theorem c8_counterexample :
    feedEvents [.starttag "a" [("href", some "/recipes/vegan-chili/")],
                .data "Hello"] = [] := rfl

/-- C8 (amended).  An anchor left unclosed at end-of-document yields no
`AnchorRecord`: the extractor silently drops it, returning exactly the
records of the anchors completed before it (best-effort, no crash). -/
theorem c8_unclosed_anchor_dropped (evs : List ParseEvent)
    (attrs : List (String × Option String)) (tail : List ParseEvent)
    (h : ∀ e ∈ tail, e ≠ .endtag "a") :
    feedEvents (evs ++ .starttag "a" attrs :: tail) = feedEvents evs := by
  unfold feedEvents
  rw [List.foldl_append, List.foldl_cons, noEndA_fold tail _ h]
  exact handleStart_anchors _ _ _

theorem c8_unclosed_anchor_dropped_witness :
    feedEvents
      [.starttag "a" [("href", some "/r")], .data "Yum", .endtag "a",
       .starttag "a" [("href", some "/x")], .data "Hi", .endtag "div"] =
    feedEvents [.starttag "a" [("href", some "/r")], .data "Yum", .endtag "a"] :=
  c8_unclosed_anchor_dropped
    [.starttag "a" [("href", some "/r")], .data "Yum", .endtag "a"]
    [("href", some "/x")] [.data "Hi", .endtag "div"] (by decide)

/-- C9.  An anchor whose `href` attribute is present but empty is skipped
exactly as if `href` were absent: it contributes no `Recipe` and the rest of
the anchors are processed identically. -/
theorem c9_empty_href_skipped (base : String) (ta al : Option String)
    (t : String) (rest : List AnchorRecord) :
    processAnchors base (⟨some "", ta, al, t⟩ :: rest) = processAnchors base rest ∧
    processAnchors base (⟨none, ta, al, t⟩ :: rest) = processAnchors base rest :=
  ⟨rfl, rfl⟩

theorem handleStart_a (st : ExtState) (attrs : List (String × Option String)) :
    handleStart st "a" attrs =
      ⟨st.anchors, some ⟨attrMapGet attrs "href", attrMapGet attrs "title",
        attrMapGet attrs "aria-label"⟩, []⟩ := by
  unfold handleStart
  rw [if_neg (by simp)]

/-- C10.  For every markup input containing a second `<a>` opening tag before
the previous anchor's closing tag — arbitrary events before the outer `<a>`,
arbitrary non-`</a>` events between the two opens, and arbitrary events
after the inner open — the extractor behaves exactly as if the outer anchor
had never been opened: its attributes and accumulated text are discarded
when the inner `<a>` opens, so no `AnchorRecord` is ever emitted for it, the
first `</a>` completes only the inner anchor's record, and any later
unmatched `</a>` is ignored (both runs are in the same state from the inner
open onward). -/
theorem c10_nested_anchor (pre mid rest : List ParseEvent)
    (A1 A2 : List (String × Option String))
    (h : ∀ e ∈ mid, e ≠ .endtag "a") :
    List.foldl extStep initExtState
        (pre ++ .starttag "a" A1 :: (mid ++ .starttag "a" A2 :: rest)) =
      List.foldl extStep initExtState (pre ++ .starttag "a" A2 :: rest) ∧
    feedEvents (pre ++ .starttag "a" A1 :: (mid ++ .starttag "a" A2 :: rest)) =
      feedEvents (pre ++ .starttag "a" A2 :: rest) := by
  have key : ∀ s1 : ExtState,
      List.foldl extStep s1
          (ParseEvent.starttag "a" A1 :: (mid ++ .starttag "a" A2 :: rest)) =
        List.foldl extStep s1 (.starttag "a" A2 :: rest) := by
    intro s1
    have hstate : extStep (List.foldl extStep (extStep s1 (.starttag "a" A1)) mid)
        (.starttag "a" A2) = extStep s1 (.starttag "a" A2) := by
      show handleStart (List.foldl extStep (handleStart s1 "a" A1) mid) "a" A2 =
        handleStart s1 "a" A2
      rw [handleStart_a (List.foldl extStep (handleStart s1 "a" A1) mid) A2,
        handleStart_a s1 A2, noEndA_fold mid _ h, handleStart_anchors]
    calc
      List.foldl extStep s1
          (ParseEvent.starttag "a" A1 :: (mid ++ .starttag "a" A2 :: rest)) =
          List.foldl extStep
            (extStep (List.foldl extStep (extStep s1 (.starttag "a" A1)) mid)
              (.starttag "a" A2)) rest := by
        rw [List.foldl_cons, List.foldl_append, List.foldl_cons]
      _ = List.foldl extStep (extStep s1 (.starttag "a" A2)) rest := by
        rw [hstate]
      _ = List.foldl extStep s1 (.starttag "a" A2 :: rest) := by
        rw [List.foldl_cons]
  have hfold : List.foldl extStep initExtState
      (pre ++ .starttag "a" A1 :: (mid ++ .starttag "a" A2 :: rest)) =
      List.foldl extStep initExtState (pre ++ .starttag "a" A2 :: rest) := by
    rw [List.foldl_append, List.foldl_append, key]
  exact ⟨hfold, congrArg ExtState.anchors hfold⟩

/-- Witness for C10 at a concrete markup: text and a `<div>` before the outer
anchor, text and a `<b>` element between the two opens, and the inner text,
both closing tags and trailing content after. -/
theorem c10_nested_anchor_witness :
    feedEvents ([.data "x", .starttag "div" []] ++
        .starttag "a" [("href", some "/outer/")] ::
        ([.data "Outer", .starttag "b" [], .endtag "b"] ++
          .starttag "a" [("href", some "/inner/")] ::
          [.data "Inner Soup", .endtag "a", .endtag "a", .data "tail"])) =
      feedEvents ([.data "x", .starttag "div" []] ++
        .starttag "a" [("href", some "/inner/")] ::
        [.data "Inner Soup", .endtag "a", .endtag "a", .data "tail"]) :=
  (c10_nested_anchor [.data "x", .starttag "div" []]
    [.data "Outer", .starttag "b" [], .endtag "b"]
    [.data "Inner Soup", .endtag "a", .endtag "a", .data "tail"]
    [("href", some "/outer/")] [("href", some "/inner/")] (by decide)).2

/-- C7.  A failure fetching or parsing any subset of the source pages never
aborts the run: for every fetch outcome pattern — in particular each
configuration where some source pages raise and the others succeed — the
whole observable outcome equals that of a run where every failing source
contributes nothing, and the run returns a success result whose count is
computed from the successful sources' recipes alone (flowing through
deduplication, selection and formatting). -/
theorem c7_partial_failure (recipient sender : Option String)
    (fetch : String → Except String (List ParseEvent)) (now : PyDateTime)
    (hr : pyTruthy recipient = true) (hs : pyTruthy sender = true) :
    mainJob recipient sender fetch now true =
      mainJob recipient sender
        (fun u => match fetch u with
          | .ok v => .ok v
          | .error _ => .ok []) now true ∧
    (mainJob recipient sender fetch now true).1 =
      .success (dedupe_recipes (RECIPE_PAGES.foldl
        (fun acc url =>
          match fetch url with
          | .error _ => acc
          | .ok events => acc ++ extract_recipes events url)
        [])).length := by
  have hx : ∀ url, extract_recipes ([] : List ParseEvent) url = [] := fun _ => rfl
  constructor
  · unfold mainJob
    cases hd : fetch dinnerPage <;> cases hl : fetch lunchPage <;>
      simp only [hr, hs, RECIPE_PAGES, List.foldl_cons, List.foldl_nil, hd, hl, hx,
        List.nil_append, List.append_nil, not_true_eq_false, and_self, if_true,
        not_false_eq_true, if_false]
  · unfold mainJob
    simp only [hr, hs, RECIPE_PAGES, List.foldl_cons, List.foldl_nil,
      List.nil_append, not_true_eq_false, and_self, not_false_eq_true, if_false]
    simp

theorem c7_partial_failure_witness :
    (mainJob (some "to@x.com") (some "from@x.com")
        (fun u => if u = dinnerPage then .error "boom"
          else .ok [.starttag "a" [("href", some "/easy-soup/")],
                    .data "Easy Soup Bowl", .endtag "a"])
        ⟨2026, 10, 12, 9, 0, 0⟩ true =
      mainJob (some "to@x.com") (some "from@x.com")
        (fun u =>
          match (if u = dinnerPage then .error "boom"
            else .ok [.starttag "a" [("href", some "/easy-soup/")],
                      .data "Easy Soup Bowl", .endtag "a"] :
              Except String (List ParseEvent)) with
          | .ok v => .ok v
          | .error _ => .ok [])
        ⟨2026, 10, 12, 9, 0, 0⟩ true) ∧
    (mainJob (some "to@x.com") (some "from@x.com")
        (fun u => if u = dinnerPage then .error "boom"
          else .ok [.starttag "a" [("href", some "/easy-soup/")],
                    .data "Easy Soup Bowl", .endtag "a"])
        ⟨2026, 10, 12, 9, 0, 0⟩ true).1 =
      .success (dedupe_recipes (RECIPE_PAGES.foldl
        (fun acc url =>
          match (if url = dinnerPage then .error "boom"
            else .ok [.starttag "a" [("href", some "/easy-soup/")],
                      .data "Easy Soup Bowl", .endtag "a"] :
              Except String (List ParseEvent)) with
          | .error _ => acc
          | .ok events => acc ++ extract_recipes events url)
        [])).length :=
  c7_partial_failure (some "to@x.com") (some "from@x.com")
    (fun u => if u = dinnerPage then .error "boom"
      else .ok [.starttag "a" [("href", some "/easy-soup/")],
                .data "Easy Soup Bowl", .endtag "a"])
    ⟨2026, 10, 12, 9, 0, 0⟩ (by decide) (by decide)

/-! ## Lemmas for the classification claim (C2)

The claim speaks about the parsed path of the URL; the code checks the
path with leading and trailing slashes stripped.  These lemmas transfer the
segment and substring conditions across that stripping. -/

theorem splitChar_append_sep (c : Char) (l : List Char) :
    splitChar c (l ++ [c]) = splitChar c l ++ [[]] := by
  induction l with
  | nil => simp [splitChar]
  | cons x xs ih =>
    by_cases hx : x = c
    · simp [splitChar, hx, ih]
    · obtain ⟨h, t, he⟩ : ∃ h t, splitChar c xs = h :: t := by
        cases hs : splitChar c xs with
        | nil => exact absurd hs (splitChar_ne_nil c xs)
        | cons h t => exact ⟨h, t, rfl⟩
      simp only [List.cons_append, splitChar, if_neg hx, List.append_eq]
      rw [ih, he]
      rfl

theorem filterSplit_dropWhile (c : Char) (l : List Char) :
    (splitChar c (l.dropWhile (· == c))).filter (· ≠ []) =
      (splitChar c l).filter (· ≠ []) := by
  induction l with
  | nil => rfl
  | cons x xs ih =>
    by_cases hx : x = c
    · subst hx
      rw [List.dropWhile_cons_of_pos (by simp)]
      rw [ih]
      simp [splitChar]
    · rw [List.dropWhile_cons_of_neg (by simp [hx])]

theorem filterSplit_rstripRev (c : Char) (r : List Char) :
    (splitChar c ((r.dropWhile (· == c)).reverse)).filter (· ≠ []) =
      (splitChar c r.reverse).filter (· ≠ []) := by
  induction r with
  | nil => rfl
  | cons x xs ih =>
    by_cases hx : x = c
    · subst hx
      rw [List.dropWhile_cons_of_pos (by simp)]
      rw [ih]
      simp [List.reverse_cons, splitChar_append_sep]
    · rw [List.dropWhile_cons_of_neg (by simp [hx])]

theorem filterSplit_stripSlash (p : List Char) :
    (splitChar '/' (pyStripSlash p)).filter (· ≠ []) =
      (splitChar '/' p).filter (· ≠ []) := by
  unfold pyStripSlash pyRstripSlash
  have h1 := filterSplit_rstripRev '/' (p.dropWhile (· == '/')).reverse
  rw [List.reverse_reverse] at h1
  rw [h1]
  exact filterSplit_dropWhile '/' p

theorem exists_occurrence_dropWhile {p0 c : Char} (hp0 : p0 ≠ c) (pr l : List Char) :
    (∃ a b, a ++ (p0 :: pr) ++ b = l) →
      ∃ a b, a ++ (p0 :: pr) ++ b = l.dropWhile (· == c) := by
  induction l with
  | nil =>
    rintro ⟨a, b, h⟩
    exact absurd (List.append_eq_nil.mp ((List.append_eq_nil.mp h).1)).2 (by simp)
  | cons x xs ih =>
    rintro ⟨a, b, h⟩
    by_cases hx : x = c
    · subst hx
      rw [List.dropWhile_cons_of_pos (by simp)]
      cases a with
      | nil =>
        exfalso
        injection h with h1 _
        exact hp0 h1
      | cons a0 as =>
        injection h with _ h2
        exact ih ⟨as, b, h2⟩
    · rw [List.dropWhile_cons_of_neg (by simp [hx])]
      exact ⟨a, b, h⟩

theorem exists_occurrence_of_dropWhile (c : Char) (pat l : List Char) :
    (∃ a b, a ++ pat ++ b = l.dropWhile (· == c)) →
      ∃ a b, a ++ pat ++ b = l := by
  rintro ⟨a, b, h⟩
  refine ⟨l.takeWhile (· == c) ++ a, b, ?_⟩
  rw [List.append_assoc, List.append_assoc, ← List.append_assoc a, h]
  exact List.takeWhile_append_dropWhile _ _

theorem exists_occurrence_reverse (pat l : List Char) :
    (∃ a b, a ++ pat ++ b = l) ↔
      ∃ a b, a ++ pat.reverse ++ b = l.reverse := by
  constructor
  · rintro ⟨a, b, rfl⟩
    exact ⟨b.reverse, a.reverse, by simp⟩
  · rintro ⟨a, b, h⟩
    refine ⟨b.reverse, a.reverse, ?_⟩
    have := congrArg List.reverse h
    simpa using this

theorem mem_of_occurrence {pat l : List Char} {x : Char}
    (h : ∃ a b, a ++ pat ++ b = l) (hx : x ∈ pat) : x ∈ l := by
  obtain ⟨a, b, rfl⟩ := h
  exact List.mem_append.mpr (Or.inl (List.mem_append.mpr (Or.inr hx)))

theorem isSubL_stripSlash {pat : List Char} (hne : pat ≠ [])
    (hsl : ∀ x ∈ pat, x ≠ '/') (l : List Char) :
    (isSubL pat (pyStripSlash l) = true ↔ isSubL pat l = true) := by
  obtain ⟨p0, pr, rfl⟩ : ∃ p0 pr, pat = p0 :: pr := by
    cases pat with
    | nil => exact absurd rfl hne
    | cons p0 pr => exact ⟨p0, pr, rfl⟩
  have hp0 : p0 ≠ '/' := hsl _ (List.mem_cons_self _ _)
  rw [isSubL_iff, isSubL_iff]
  unfold pyStripSlash pyRstripSlash
  constructor
  · intro h
    have h1 : ∃ a b, a ++ (p0 :: pr).reverse ++ b =
        (l.dropWhile (· == '/')).reverse.dropWhile (· == '/') := by
      have h0 := (exists_occurrence_reverse (p0 :: pr) _).mp h
      rwa [List.reverse_reverse] at h0
    have h2 := exists_occurrence_of_dropWhile '/' (p0 :: pr).reverse
      (l.dropWhile (· == '/')).reverse h1
    have h3 : ∃ a b, a ++ (p0 :: pr) ++ b = l.dropWhile (· == '/') := by
      have h0 := (exists_occurrence_reverse (p0 :: pr).reverse _).mp h2
      rwa [List.reverse_reverse, List.reverse_reverse] at h0
    exact exists_occurrence_of_dropWhile '/' _ l h3
  · intro h
    have h1 := exists_occurrence_dropWhile hp0 pr l h
    have h2 := (exists_occurrence_reverse (p0 :: pr) _).mp h1
    obtain ⟨q0, qr, hq⟩ : ∃ q0 qr, (p0 :: pr).reverse = q0 :: qr := by
      cases hrv : (p0 :: pr).reverse with
      | nil => exact absurd hrv (by simp)
      | cons q0 qr => exact ⟨q0, qr, rfl⟩
    have hq0 : q0 ≠ '/' := by
      have hm : q0 ∈ (p0 :: pr).reverse := by
        rw [hq]
        exact List.mem_cons_self _ _
      exact hsl _ (List.mem_reverse.mp hm)
    rw [hq] at h2
    have h3 := exists_occurrence_dropWhile hq0 qr _ h2
    rw [← hq] at h3
    have h4 := (exists_occurrence_reverse (p0 :: pr).reverse _).mp h3
    rwa [List.reverse_reverse] at h4

theorem lower_beq_slash (x : Char) : (x.toLower == '/') = (x == '/') := by
  by_cases h : x = '/'
  · subst h
    rw [toLower_eq_self (by decide)]
  · have h2 : x.toLower ≠ '/' := fun hc => h (toLower_eq_special (by decide) hc)
    simp [h, h2]

theorem lowerL_dropWhile_slash (l : List Char) :
    (lowerL l).dropWhile (· == '/') = lowerL (l.dropWhile (· == '/')) := by
  induction l with
  | nil => rfl
  | cons x xs ih =>
    by_cases hx : (x == '/') = true
    · have hx' : x = '/' := by simpa using hx
      subst hx'
      have hl : lowerL ('/' :: xs) = '/' :: lowerL xs := by
        show Char.toLower '/' :: lowerL xs = '/' :: lowerL xs
        rw [toLower_eq_self (by decide)]
      rw [hl, List.dropWhile_cons_of_pos (by simp),
        List.dropWhile_cons_of_pos (by simp)]
      exact ih
    · have hlx : (Char.toLower x == '/') = false := by
        rw [lower_beq_slash]
        simpa using hx
      have hl : lowerL (x :: xs) = x.toLower :: lowerL xs := rfl
      rw [hl, List.dropWhile_cons_of_neg (by simp [hlx]),
        List.dropWhile_cons_of_neg (by simpa using hx)]
      exact hl.symm

theorem lowerL_reverse (l : List Char) : lowerL l.reverse = (lowerL l).reverse :=
  List.map_reverse _ _

theorem lowerL_stripSlash (p : List Char) :
    lowerL (pyStripSlash p) = pyStripSlash (lowerL p) := by
  show lowerL ((((p.dropWhile (· == '/')).reverse).dropWhile (· == '/')).reverse) =
    ((((lowerL p).dropWhile (· == '/')).reverse).dropWhile (· == '/')).reverse
  rw [lowerL_dropWhile_slash, ← lowerL_reverse, lowerL_dropWhile_slash,
    ← lowerL_reverse]

theorem dropWhile_head_false {pr : Char → Bool} {l : List Char} {x : Char}
    {xs : List Char} (h : l.dropWhile pr = x :: xs) : pr x = false := by
  induction l with
  | nil => simp [List.dropWhile] at h
  | cons a t ih =>
    by_cases ha : pr a
    · rw [List.dropWhile_cons_of_pos ha] at h
      exact ih h
    · rw [List.dropWhile_cons_of_neg ha] at h
      injection h with h1 _
      subst h1
      simpa using ha

theorem stripSlash_shape (p : List Char) (h : pyStripSlash p ≠ []) :
    ∃ x t, pyStripSlash p = x :: t ∧ (x == '/') = false := by
  have hps : pyStripSlash p =
      ((p.dropWhile (· == '/')).reverse.dropWhile (· == '/')).reverse := rfl
  have hqne : p.dropWhile (· == '/') ≠ [] := by
    intro hc
    apply h
    rw [hps, hc]
    rfl
  obtain ⟨x, xs, hx⟩ : ∃ x xs, p.dropWhile (· == '/') = x :: xs := by
    cases hc : p.dropWhile (· == '/') with
    | nil => exact absurd hc hqne
    | cons x xs => exact ⟨x, xs, rfl⟩
  have hxf : (x == '/') = false := by
    have h0 := @dropWhile_head_false (fun c => c == '/') p x xs hx
    simpa using h0
  have hres : pyStripSlash p = ((x :: xs).reverse.dropWhile (· == '/')).reverse := by
    rw [hps, hx]
  have htail : x :: xs = ((x :: xs).reverse.dropWhile (· == '/')).reverse ++
      ((x :: xs).reverse.takeWhile (· == '/')).reverse := by
    have h1 : (x :: xs).reverse.takeWhile (· == '/') ++
        (x :: xs).reverse.dropWhile (· == '/') = (x :: xs).reverse :=
      List.takeWhile_append_dropWhile _ _
    have h2 := congrArg List.reverse h1
    simp only [List.reverse_append, List.reverse_reverse] at h2
    exact h2.symm
  have hdne : ((x :: xs).reverse.dropWhile (· == '/')).reverse ≠ [] := by
    rw [← hres]
    exact h
  obtain ⟨y, ys, hy⟩ : ∃ y ys,
      ((x :: xs).reverse.dropWhile (· == '/')).reverse = y :: ys := by
    cases hc : ((x :: xs).reverse.dropWhile (· == '/')).reverse with
    | nil => exact absurd hc hdne
    | cons y ys => exact ⟨y, ys, rfl⟩
  refine ⟨y, ys, by rw [hres, hy], ?_⟩
  rw [hy] at htail
  injection htail with h1 _
  rwa [← h1]

theorem filterSplit_ne_nil {l : List Char} {x : Char} {t : List Char}
    (hl : l = x :: t) (hx : (x == '/') = false) :
    (splitChar '/' l).filter (· ≠ []) ≠ [] := by
  subst hl
  have hxne : x ≠ '/' := by simpa using hx
  simp only [splitChar, if_neg hxne]
  obtain ⟨h, t', he⟩ : ∃ h t', splitChar '/' t = h :: t' := by
    cases hs : splitChar '/' t with
    | nil => exact absurd hs (splitChar_ne_nil '/' t)
    | cons h t' => exact ⟨h, t', rfl⟩
  rw [he]
  simp

/-- The classification contract exactly as the claim states it, over the
parsed components of the URL: http/https scheme, allowed host compared
case-insensitively, non-empty slash-stripped path, first path segment not
excluded, and no excluded substring anywhere in the lowercased path. -/
def specRecipeUrl (u : List Char) : Prop :=
  ((pyUrlparse u).scheme = "http".data ∨ (pyUrlparse u).scheme = "https".data) ∧
  lowerL (pyUrlparse u).netloc ∈ allowedHosts ∧
  pyStripSlash (pyUrlparse u).path ≠ [] ∧
  (∀ s, ((splitChar '/' (pyUrlparse u).path).filter (· ≠ [])).head? = some s →
      lowerL s ∉ excludedFirstSegs) ∧
  ∀ f ∈ excludedPathFrags, ¬ isSubL f (lowerL (pyUrlparse u).path)

theorem excludedPathFrags_wf :
    ∀ f ∈ excludedPathFrags, f ≠ [] ∧ ∀ x ∈ f, x ≠ '/' := by decide

/-- Transfer of the substring check from the stripped path (code) to the
full path (claim). -/
theorem isSubL_lower_strip (f p : List Char) (hf : f ≠ [] ∧ ∀ x ∈ f, x ≠ '/') :
    (isSubL f (lowerL (pyStripSlash p)) = true ↔ isSubL f (lowerL p) = true) := by
  rw [lowerL_stripSlash]
  exact isSubL_stripSlash hf.1 hf.2 (lowerL p)

/-- C2.  `is_recipe_url(u)` returns true exactly when: the scheme is http or
https; the host, case-insensitively, is an allowed host; the path stripped
of slashes is non-empty; the first path segment, lowercased, is not
excluded; and the lowercased path contains none of the excluded substrings
anywhere. -/
theorem c2_recipe_url_contract (u : String) :
    is_recipe_url u = true ↔ specRecipeUrl u.data := by
  simp only [is_recipe_url, isRecipeUrlL, specRecipeUrl]
  by_cases h1 : (pyUrlparse u.data).scheme = "http".data ∨
      (pyUrlparse u.data).scheme = "https".data
  · rw [if_neg (not_not_intro h1)]
    by_cases h2 : lowerL (pyUrlparse u.data).netloc ∈ allowedHosts
    · rw [if_neg (not_not_intro h2)]
      by_cases h3 : pyStripSlash (pyUrlparse u.data).path = []
      · rw [if_pos h3]
        refine iff_of_false (by simp) ?_
        rintro ⟨-, -, hC, -⟩
        exact hC h3
      · rw [if_neg h3]
        obtain ⟨x, t, hxt, hxf⟩ := stripSlash_shape _ h3
        have hsne := filterSplit_ne_nil hxt hxf
        rw [if_neg hsne]
        obtain ⟨s0, st, hseg⟩ : ∃ s0 st,
            (splitChar '/' (pyStripSlash (pyUrlparse u.data).path)).filter
              (· ≠ []) = s0 :: st := by
          cases hc : (splitChar '/' (pyStripSlash (pyUrlparse u.data).path)).filter
              (· ≠ []) with
          | nil => exact absurd hc hsne
          | cons s0 st => exact ⟨s0, st, rfl⟩
        by_cases h5 : lowerL (((splitChar '/'
            (pyStripSlash (pyUrlparse u.data).path)).filter (· ≠ [])).headD []) ∈
            excludedFirstSegs
        · rw [if_pos h5]
          refine iff_of_false (by simp) ?_
          rintro ⟨-, -, -, hD, -⟩
          refine absurd (hD s0 ?_) ?_
          · rw [← filterSplit_stripSlash, hseg]
            rfl
          · rw [hseg] at h5
            simpa using h5
        · rw [if_neg h5]
          by_cases h6 : (excludedPathFrags.any
              fun f => isSubL f (lowerL (pyStripSlash (pyUrlparse u.data).path))) = true
          · rw [if_pos h6]
            refine iff_of_false (by simp) ?_
            rintro ⟨-, -, -, -, hE⟩
            obtain ⟨f, hfm, hfs⟩ := List.any_eq_true.mp h6
            exact hE f hfm
              ((isSubL_lower_strip f _ (excludedPathFrags_wf f hfm)).mp hfs)
          · rw [if_neg h6]
            simp only [true_iff]
            refine ⟨h1, h2, h3, ?_, ?_⟩
            · intro s hs
              rw [← filterSplit_stripSlash, hseg] at hs
              injection hs with hs0
              subst hs0
              rw [hseg] at h5
              simpa using h5
            · intro f hfm hfs
              apply h6
              refine List.any_eq_true.mpr ⟨f, hfm, ?_⟩
              exact (isSubL_lower_strip f _ (excludedPathFrags_wf f hfm)).mpr hfs
    · rw [if_pos h2]
      refine iff_of_false (by simp) ?_
      rintro ⟨-, hB, -⟩
      exact h2 hB
  · rw [if_pos h1]
    refine iff_of_false (by simp) ?_
    rintro ⟨hA, -⟩
    exact h1 hA

/-! ## Lemmas for the normalization claim (C6)

`strip_url` is not idempotent in general (see the counterexample below); the
lemmas here establish idempotence for URLs without `;` whose parsed path does
not begin with `//` while the netloc is empty. -/

/-- Unsafe URL bytes are C0 controls. -/
theorem unsafe_c0 {c : Char} (h : isUnsafeUrlByte c = true) :
    isC0OrSpace c = true := by
  have h' : (c = '\t' ∨ c = '\r') ∨ c = '\n' := by
    simpa [isUnsafeUrlByte, or_assoc] using h
  rcases h' with (rfl | rfl) | rfl <;> decide

theorem schemeChar_toNat {c : Char} (h : schemeChar c = true) :
    43 ≤ c.toNat ∧ c.toNat ≤ 122 ∧ c.toNat ≠ 58 ∧ c.toNat ≠ 47 ∧
      c.toNat ≠ 35 ∧ c.toNat ≠ 63 ∧ c.toNat ≠ 59 := by
  simp only [schemeChar, isAsciiAlpha, Bool.or_eq_true, decide_eq_true_eq,
    beq_iff_eq] at h
  rcases h with ((((hA1 | hA2) | hD) | h1) | h2) | h3
  · omega
  · omega
  · omega
  · subst h1; decide
  · subst h2; decide
  · subst h3; decide

theorem schemeChar_clean {c : Char} (h : schemeChar c = true) :
    isUnsafeUrlByte c = false := by
  rcases Bool.eq_false_or_eq_true (isUnsafeUrlByte c) with hb | hb
  · have h1 := unsafe_c0 hb
    have h2 := (schemeChar_toNat h).1
    simp only [isC0OrSpace, decide_eq_true_eq] at h1
    omega
  · exact hb

theorem isAsciiAlpha_toLower {c : Char} (h : isAsciiAlpha c = true) :
    isAsciiAlpha c.toLower = true := by
  simp only [isAsciiAlpha, decide_eq_true_eq] at h ⊢
  by_cases hu : 65 ≤ c.toNat ∧ c.toNat ≤ 90
  · rw [toLower_toNat_of_upper hu]
    omega
  · rw [toLower_eq_self hu]
    rcases h with h | h
    · exact absurd h hu
    · exact Or.inr h

theorem schemeChar_toLower {c : Char} (h : schemeChar c = true) :
    schemeChar c.toLower = true := by
  simp only [schemeChar, Bool.or_eq_true] at h ⊢
  by_cases hu : 65 ≤ c.toNat ∧ c.toNat ≤ 90
  · refine Or.inl (Or.inl (Or.inl ?_))
    have := toLower_toNat_of_upper hu
    simp only [isAsciiAlpha, decide_eq_true_eq]
    omega
  · rwa [toLower_eq_self hu]

theorem isAsciiAlpha_false_slash : isAsciiAlpha '/' = false := by decide

/-- A character of a scheme-char list is not a colon. -/
theorem schemeChar_ne_colon {c : Char} (h : schemeChar c = true) : c ≠ ':' := by
  intro hc
  subst hc
  exact absurd h (by decide)

/-- `takeWhile` over a list all of whose elements satisfy the predicate,
followed by a failing element. -/
theorem takeWhile_all_append (pr : Char → Bool) (a : List Char) (b : Char)
    (bs : List Char) (ha : ∀ x ∈ a, pr x = true) (hb : pr b = false) :
    (a ++ b :: bs).takeWhile pr = a ∧ (a ++ b :: bs).dropWhile pr = b :: bs := by
  induction a with
  | nil =>
    constructor
    · exact List.takeWhile_cons_of_neg (by simp [hb])
    · exact List.dropWhile_cons_of_neg (by simp [hb])
  | cons x xs ih =>
    have hx : pr x = true := ha x (List.mem_cons_self _ _)
    obtain ⟨ih1, ih2⟩ := ih fun y hy => ha y (List.mem_cons_of_mem _ hy)
    constructor
    · rw [List.cons_append, List.takeWhile_cons_of_pos hx, ih1]
    · rw [List.cons_append, List.dropWhile_cons_of_pos hx, ih2]

theorem takeWhile_of_all {pr : Char → Bool} {l : List Char}
    (h : ∀ x ∈ l, pr x = true) : l.takeWhile pr = l :=
  List.takeWhile_eq_self_iff.mpr h

theorem dropWhile_of_all {pr : Char → Bool} {l : List Char}
    (h : ∀ x ∈ l, pr x = true) : l.dropWhile pr = [] :=
  List.dropWhile_eq_nil_iff.mpr h

theorem mem_dropWhile_sub {pr : Char → Bool} {l : List Char} {x : Char}
    (h : x ∈ l.dropWhile pr) : x ∈ l := by
  rw [← List.takeWhile_append_dropWhile pr l]
  exact List.mem_append.mpr (Or.inr h)

theorem mem_takeWhile_sub {pr : Char → Bool} {l : List Char} {x : Char}
    (h : x ∈ l.takeWhile pr) : x ∈ l := by
  rw [← List.takeWhile_append_dropWhile pr l]
  exact List.mem_append.mpr (Or.inl h)

/-! Facts about `sanitizeUrl`. -/

theorem sanitize_clean {u : List Char} : ∀ c ∈ sanitizeUrl u,
    isUnsafeUrlByte c = false := by
  intro c hc
  have := List.mem_filter.mp hc
  simpa using this.2

theorem sanitize_head_c0 {u : List Char} {x : Char} {t : List Char}
    (h : sanitizeUrl u = x :: t) : isC0OrSpace x = false := by
  unfold sanitizeUrl removeUnsafe at h
  cases hq : u.dropWhile isC0OrSpace with
  | nil => rw [hq] at h; exact absurd h (by simp)
  | cons y ys =>
    have hy : isC0OrSpace y = false := dropWhile_head_false hq
    have hyu : isUnsafeUrlByte y = false := by
      rcases Bool.eq_false_or_eq_true (isUnsafeUrlByte y) with hb | hb
      · rw [unsafe_c0 hb] at hy; exact absurd hy (by simp)
      · exact hb
    rw [hq, List.filter_cons_of_pos (by simp [hyu])] at h
    injection h with h1 _
    rwa [← h1]

/-- `sanitizeUrl` fixes any list without unsafe bytes whose head is not a C0
control or space. -/
theorem sanitize_fix {l : List Char}
    (hclean : ∀ c ∈ l, isUnsafeUrlByte c = false)
    (hhead : ∀ x t, l = x :: t → isC0OrSpace x = false) :
    sanitizeUrl l = l := by
  unfold sanitizeUrl removeUnsafe
  cases l with
  | nil => rfl
  | cons x t =>
    rw [List.dropWhile_cons_of_neg (by simp [hhead x t rfl])]
    rw [List.filter_eq_self.mpr (by intro a ha; simp [hclean a ha])]

/-! Facts about `splitHash` and `splitQm`. -/

theorem splitHash_no {l : List Char} (h : '#' ∉ l) : splitHash l = (l, []) := by
  unfold splitHash
  have hall : ∀ x ∈ l, (x != '#') = true := by
    intro x hx
    simp only [bne_iff_ne, ne_eq]
    intro hc
    exact h (hc ▸ hx)
  rw [takeWhile_of_all hall, dropWhile_of_all hall]

theorem splitQm_no {l : List Char} (h : '?' ∉ l) : splitQm l = (l, []) := by
  unfold splitQm
  have hall : ∀ x ∈ l, (x != '?') = true := by
    intro x hx
    simp only [bne_iff_ne, ne_eq]
    intro hc
    exact h (hc ▸ hx)
  rw [takeWhile_of_all hall, dropWhile_of_all hall]

/-! Facts about `detectScheme`. -/

theorem detect_nil : detectScheme [] = ([], []) := rfl

theorem detect_head_nonalpha {x : Char} {t : List Char}
    (h : isAsciiAlpha x = false) : detectScheme (x :: t) = ([], x :: t) := by
  unfold detectScheme
  by_cases hx : ((x != ':') = true)
  · rw [List.takeWhile_cons_of_pos (p := fun y => y != ':') hx,
      List.dropWhile_cons_of_pos (p := fun y => y != ':') hx]
    cases hd : t.dropWhile (fun y => y != ':') with
    | nil => simp [hd]
    | cons d ds => simp [hd, h]
  · rw [List.takeWhile_cons_of_neg (p := fun y => y != ':') hx,
      List.dropWhile_cons_of_neg (p := fun y => y != ':') hx]

/-- Success form of `detectScheme`: a proper scheme prefix followed by a
colon is detected and lowercased. -/
theorem detect_success {t : List Char} {c : Char} {cs : List Char}
    (hc : isAsciiAlpha c = true)
    (hall : (c :: cs).all schemeChar = true)
    (hnc : ∀ x ∈ (c : Char) :: cs, x ≠ ':') :
    detectScheme ((c :: cs) ++ ':' :: t) = (lowerL (c :: cs), t) := by
  unfold detectScheme
  obtain ⟨h1, h2⟩ := takeWhile_all_append (fun y => y != ':') (c :: cs) ':' t
    (fun x hx => by simp only [bne_iff_ne, ne_eq]; exact hnc x hx)
    (by simp)
  rw [h1, h2]
  simp [hc, hall]

/-- Characterisation of `detectScheme`. -/
theorem detect_cases (l : List Char) :
    detectScheme l = ([], l) ∨
    ∃ c cs t, l = (c :: cs) ++ ':' :: t ∧
      detectScheme l = (lowerL (c :: cs), t) ∧
      isAsciiAlpha c = true ∧ (c :: cs).all schemeChar = true ∧
      ∀ x ∈ (c : Char) :: cs, x ≠ ':' := by
  unfold detectScheme
  cases hd : l.dropWhile (fun y => y != ':') with
  | nil => simp [hd]
  | cons d ds =>
    have hdc : d = ':' := by
      have h0 := @dropWhile_head_false (fun y => y != ':') l d ds hd
      simpa using h0
    cases hp : l.takeWhile (fun y => y != ':') with
    | nil => simp [hd, hp]
    | cons c cs =>
      by_cases hcond : isAsciiAlpha c = true ∧ (c :: cs).all schemeChar = true
      · refine Or.inr ⟨c, cs, ds, ?_, ?_, hcond.1, hcond.2, ?_⟩
        · subst hdc
          rw [← hp, ← hd]
          exact (List.takeWhile_append_dropWhile _ _).symm
        · simp [hd, hp, hcond.1, hcond.2]
        · intro x hx
          have h0 := List.mem_takeWhile_imp (hp ▸ hx)
          simpa using h0
      · simp only [hd, hp, if_neg hcond]
        exact Or.inl (by simp)

/-- Failure of scheme detection transfers to any shorter list with the same
characters up to its length (a left factor). -/
theorem detect_fail_pfx {s p : List Char} (hs : detectScheme s = ([], s))
    (hpfx : ∃ t, p ++ t = s) : detectScheme p = ([], p) := by
  rcases detect_cases p with h | ⟨c, cs, t, hpt, hdet, hca, hcs, hnc⟩
  · exact h
  · exfalso
    obtain ⟨ext, hext⟩ := hpfx
    have hsform : s = (c :: cs) ++ ':' :: (t ++ ext) := by
      rw [← hext, hpt]
      simp
    have hsucc := detect_success hca hcs hnc (t := t ++ ext)
    rw [← hsform] at hsucc
    rw [hsucc] at hs
    injection hs with h1 _
    exact absurd h1.symm (by simp [lowerL])

/-! Facts about `parseNetloc` and `pyRstripSlash`. -/

theorem parseNetloc_no {l : List Char} (h : l.take 2 ≠ ['/', '/']) :
    parseNetloc l = ([], l) := by
  unfold parseNetloc
  rw [if_neg h]

theorem parseNetloc_yes (nl rest : List Char)
    (hnl : ∀ c ∈ nl, netlocDelim c = false)
    (hrest : rest = [] ∨ ∃ r0 rs, rest = r0 :: rs ∧ netlocDelim r0 = true) :
    parseNetloc ('/' :: '/' :: (nl ++ rest)) = (nl, rest) := by
  unfold parseNetloc
  rw [if_pos (by simp)]
  simp only [List.drop_succ_cons, List.drop_zero]
  rcases hrest with rfl | ⟨r0, rs, rfl, hr0⟩
  · rw [List.append_nil,
      takeWhile_of_all (fun x hx => by simp [hnl x hx]),
      dropWhile_of_all (fun x hx => by simp [hnl x hx])]
  · obtain ⟨h1, h2⟩ := takeWhile_all_append (fun c => !netlocDelim c) nl r0 rs
      (fun x hx => by simp [hnl x hx]) (by simp [hr0])
    rw [h1, h2]

theorem dropWhile_length_le (pr : Char → Bool) (l : List Char) :
    (l.dropWhile pr).length ≤ l.length := by
  induction l with
  | nil => simp
  | cons a t ih =>
    by_cases h : pr a
    · rw [List.dropWhile_cons_of_pos h]
      exact le_trans ih (by simp)
    · rw [List.dropWhile_cons_of_neg h]

theorem rstrip_of_rev_head {l : List Char} {x : Char} {t : List Char}
    (h : l.reverse = x :: t) (hx : (x == '/') = false) :
    pyRstripSlash l = l := by
  unfold pyRstripSlash
  rw [h, List.dropWhile_cons_of_neg (by simp_all), ← h, List.reverse_reverse]

/-- The result of the path-strip step never ends in `/` unless it is `/`
itself, so the step is idempotent. -/
theorem pathStrip_idem (q : List Char) :
    (if (if q = ['/'] then q else pyRstripSlash q) = ['/']
     then (if q = ['/'] then q else pyRstripSlash q)
     else pyRstripSlash (if q = ['/'] then q else pyRstripSlash q)) =
    (if q = ['/'] then q else pyRstripSlash q) := by
  by_cases hq : q = ['/']
  · subst hq
    simp
  · rw [if_neg hq]
    cases hrev : (pyRstripSlash q).reverse with
    | nil =>
      have hnil : pyRstripSlash q = [] := by
        have := congrArg List.reverse hrev
        simpa using this
      rw [hnil]
      rfl
    | cons x xs =>
      have hx : (x == '/') = false := by
        unfold pyRstripSlash at hrev
        rw [List.reverse_reverse] at hrev
        exact @dropWhile_head_false (fun y => y == '/') q.reverse x xs hrev
      have hne : pyRstripSlash q ≠ ['/'] := by
        intro hc
        have h0 : (pyRstripSlash q).reverse = ['/'] := by rw [hc]; rfl
        rw [hrev] at h0
        injection h0 with h1 _
        rw [h1] at hx
        exact absurd hx (by decide)
      rw [if_neg hne]
      exact rstrip_of_rev_head hrev hx

/-- A stripped path is fixed by `pyRstripSlash` and, unless it is `/` or
empty, its last character (head of its reverse) is not `/`. -/
theorem strip_fix_rev_shape {p : List Char}
    (hstr : (if p = ['/'] then p else pyRstripSlash p) = p) (hp : p ≠ ['/'])
    (hne : p ≠ []) : ∃ x t, p.reverse = x :: t ∧ (x == '/') = false := by
  rw [if_neg hp] at hstr
  cases hrev : p.reverse with
  | nil =>
    exfalso
    exact hne (by simpa using congrArg List.reverse hrev)
  | cons x xs =>
    refine ⟨x, xs, rfl, ?_⟩
    rcases Bool.eq_false_or_eq_true (x == '/') with hb | hb
    · exfalso
      have hx : x = '/' := by simpa using hb
      subst hx
      have hlen : (pyRstripSlash p).length < p.length := by
        unfold pyRstripSlash
        rw [hrev, List.dropWhile_cons_of_pos (by simp)]
        have h1 : (xs.dropWhile (· == '/')).length ≤ xs.length :=
          dropWhile_length_le _ _
        have h2 : p.length = xs.length + 1 := by
          have := congrArg List.length hrev
          simpa using this
        simp only [List.length_reverse]
        omega
      rw [hstr] at hlen
      exact absurd hlen (by omega)
    · exact hb

/-! Cleanliness and lowercasing closure. -/

theorem alpha_not_c0 {c : Char} (h : isAsciiAlpha c = true) :
    isC0OrSpace c = false := by
  simp only [isAsciiAlpha, decide_eq_true_eq] at h
  simp only [isC0OrSpace, decide_eq_false_iff_not]
  omega

theorem alpha_clean {c : Char} (h : isAsciiAlpha c = true) :
    isUnsafeUrlByte c = false := by
  rcases Bool.eq_false_or_eq_true (isUnsafeUrlByte c) with hb | hb
  · have h1 := unsafe_c0 hb
    have h2 := alpha_not_c0 h
    rw [h1] at h2
    exact absurd h2 (by decide)
  · exact hb

theorem clean_toLower {c : Char} (h : isUnsafeUrlByte c = false) :
    isUnsafeUrlByte c.toLower = false := by
  rcases Bool.eq_false_or_eq_true (isUnsafeUrlByte c.toLower) with hb | hb
  · have hl : (c.toLower = '\t' ∨ c.toLower = '\r') ∨ c.toLower = '\n' := by
      simpa [isUnsafeUrlByte, or_assoc] using hb
    rcases hl with (hl | hl) | hl
    all_goals
      have hc := toLower_eq_special (by decide) hl
      subst hc
      exact absurd h (by decide)
  · exact hb

theorem lowerL_clean {l : List Char} (h : ∀ c ∈ l, isUnsafeUrlByte c = false) :
    ∀ c ∈ lowerL l, isUnsafeUrlByte c = false := by
  intro c hc
  obtain ⟨c0, hc0, rfl⟩ := List.mem_map.mp hc
  exact clean_toLower (h c0 hc0)

theorem lowerL_all_schemeChar {l : List Char} (h : l.all schemeChar = true) :
    (lowerL l).all schemeChar = true := by
  rw [List.all_eq_true] at h ⊢
  intro c hc
  obtain ⟨c0, hc0, rfl⟩ := List.mem_map.mp hc
  exact schemeChar_toLower (h c0 hc0)

/-! Assembly lemmas for the idempotence proof. -/

theorem withQuery_nil (u : List Char) : withQuery u [] = u := by
  unfold withQuery
  simp

theorem withFrag_nil (u : List Char) : withFrag u [] = u := by
  unfold withFrag
  simp

/-- Shape of `urlunsplit` when the `//` marker is not inserted. -/
theorem unsplit_no_netloc {sch nl p : List Char}
    (h : ¬(nl ≠ [] ∨ (sch ≠ [] ∧ sch ∈ usesNetloc ∧ p.take 2 ≠ ['/', '/']))) :
    pyUrlunsplit sch nl p [] [] = schemePart sch p := by
  unfold pyUrlunsplit netlocPart
  rw [withFrag_nil, withQuery_nil, if_neg h]

/-- Shape of `urlunsplit` when the `//` marker is inserted. -/
theorem unsplit_netloc {sch nl p : List Char}
    (h : nl ≠ [] ∨ (sch ≠ [] ∧ sch ∈ usesNetloc ∧ p.take 2 ≠ ['/', '/'])) :
    pyUrlunsplit sch nl p [] [] =
      schemePart sch ('/' :: '/' ::
        (nl ++ (if p ≠ [] ∧ p.take 1 ≠ ['/'] then '/' :: p else p))) := by
  unfold pyUrlunsplit netlocPart
  rw [withFrag_nil, withQuery_nil, if_pos h]

/-- Computation of `urlsplit` from its stage results. -/
theorem urlsplit_parts {O r0 sch0 n0 r1 p3 f2 p2 q2 : List Char}
    (hsan : sanitizeUrl O = O)
    (hdet : detectScheme O = (sch0, r0))
    (hnet : parseNetloc r0 = (n0, r1))
    (hhash : splitHash r1 = (p3, f2))
    (hqm : splitQm p3 = (p2, q2)) :
    pyUrlsplitD [] O = ⟨if sch0 = [] then [] else sch0, n0, p2, q2, f2⟩ := by
  unfold pyUrlsplitD pyUrlsplitStages
  rw [hsan, hdet]
  simp only [hnet, hhash, hqm]

/-- Computation of `strip_url` from the parse of its input. -/
theorem stripUrl_eq {O sch1 n0 p2 : List Char}
    (hsplit : pyUrlsplitD [] O = ⟨sch1, n0, p2, [], []⟩)
    (hsemi : ';' ∉ p2)
    (hstr2 : (if p2 = ['/'] then p2 else pyRstripSlash p2) = p2) :
    stripUrlL O = pyUrlunsplit sch1 n0 p2 [] [] := by
  unfold stripUrlL pyUrlparse pyUrlparseD pyParseStage pyUrlunparse
  rw [hsplit, if_neg (fun hc => hsemi hc.2)]
  simp only []
  rw [hstr2, if_neg (by simp)]

/-- Core of the idempotence proof: `strip_url` fixes any URL rebuilt by
`urlunsplit` from components of the shape the first parse-and-strip pass
produces. -/
theorem strip_build_idem
    (sch nl p : List Char)
    (hschClean : ∀ c ∈ sch, isUnsafeUrlByte c = false)
    (hsch : sch = [] ∨ ∃ c cs, sch = c :: cs ∧ isAsciiAlpha c = true ∧
        (c :: cs).all schemeChar = true ∧ lowerL sch = sch)
    (hnlClean : ∀ c ∈ nl, isUnsafeUrlByte c = false)
    (hpClean : ∀ c ∈ p, isUnsafeUrlByte c = false)
    (hnl : ∀ c ∈ nl, netlocDelim c = false)
    (hp1 : '#' ∉ p) (hp2 : '?' ∉ p) (hpsemi : ';' ∉ p)
    (hp3 : nl ≠ [] → p = [] ∨ ∃ t, p = '/' :: t)
    (hp4 : sch = [] → nl = [] → detectScheme p = ([], p))
    (hp5 : sch = [] → nl = [] → ∀ x t, p = x :: t → isC0OrSpace x = false)
    (hp6 : nl = [] → p.take 2 ≠ ['/', '/'])
    (hstr : (if p = ['/'] then p else pyRstripSlash p) = p) :
    stripUrlL (pyUrlunsplit sch nl p [] []) = pyUrlunsplit sch nl p [] [] := by
  by_cases hnlE : nl = []
  · subst hnlE
    by_cases hcond : sch ≠ [] ∧ sch ∈ usesNetloc
    · -- the scheme inserts a `//` marker
      obtain ⟨hschNe, hun⟩ := hcond
      obtain ⟨c, cs, hsc, hca, hcs, hlow⟩ := hsch.resolve_left hschNe
      have htake := hp6 rfl
      -- the path actually placed after `//`
      by_cases hpre : p ≠ [] ∧ p.take 1 ≠ ['/']
      · -- a `/` is prepended
        obtain ⟨hpne, hp1t⟩ := hpre
        obtain ⟨q, qt, hq⟩ : ∃ q qt, p = q :: qt := by
          cases hc : p with
          | nil => exact absurd hc hpne
          | cons q qt => exact ⟨q, qt, rfl⟩
        have hqne : q ≠ '/' := by
          intro hqc
          apply hp1t
          rw [hq, hqc]
          rfl
        have hO : pyUrlunsplit sch [] p [] [] =
            schemePart sch ('/' :: '/' :: ('/' :: p)) := by
          rw [unsplit_netloc (Or.inr ⟨hschNe, hun, htake⟩),
            if_pos ⟨hpne, hp1t⟩]
          rfl
        have hBclean : ∀ x ∈ '/' :: p, isUnsafeUrlByte x = false := by
          intro x hx
          rcases List.mem_cons.mp hx with rfl | hx
          · decide
          · exact hpClean x hx
        have hB1 : '#' ∉ '/' :: p := by
          intro hx
          rcases List.mem_cons.mp hx with hc | hc
          · exact absurd hc (by decide)
          · exact hp1 hc
        have hB2 : '?' ∉ '/' :: p := by
          intro hx
          rcases List.mem_cons.mp hx with hc | hc
          · exact absurd hc (by decide)
          · exact hp2 hc
        have hB3 : ';' ∉ '/' :: p := by
          intro hx
          rcases List.mem_cons.mp hx with hc | hc
          · exact absurd hc (by decide)
          · exact hpsemi hc
        have hBstrip : (if '/' :: p = ['/'] then '/' :: p
            else pyRstripSlash ('/' :: p)) = '/' :: p := by
          have hne2 : '/' :: p ≠ ['/'] := by
            intro hc
            injection hc with _ h2
            exact hpne h2
          rw [if_neg hne2]
          have hpNeSlash : p ≠ ['/'] := by
            rw [hq]
            intro hc
            injection hc with h1 _
            exact hqne h1
          obtain ⟨x, xs, hxr, hxf⟩ := strip_fix_rev_shape hstr hpNeSlash hpne
          have hrev : ('/' :: p).reverse = x :: (xs ++ ['/']) := by
            rw [List.reverse_cons, hxr]
            rfl
          exact rstrip_of_rev_head hrev hxf
        have hsan : sanitizeUrl (schemePart sch ('/' :: '/' :: ('/' :: p))) =
            schemePart sch ('/' :: '/' :: ('/' :: p)) := by
          apply sanitize_fix
          · intro x hx
            unfold schemePart at hx
            rw [if_pos hschNe] at hx
            rcases List.mem_append.mp hx with hx | hx
            · exact hschClean x hx
            · rcases List.mem_cons.mp hx with rfl | hx
              · decide
              · rcases List.mem_cons.mp hx with rfl | hx
                · decide
                · rcases List.mem_cons.mp hx with rfl | hx
                  · decide
                  · exact hBclean x hx
          · intro x t heq
            unfold schemePart at heq
            rw [if_pos hschNe, hsc] at heq
            injection heq with h1 _
            rw [← h1]
            exact alpha_not_c0 hca
        have hdet : detectScheme (schemePart sch ('/' :: '/' :: ('/' :: p))) =
            (sch, '/' :: '/' :: ('/' :: p)) := by
          unfold schemePart
          rw [if_pos hschNe, hsc]
          rw [detect_success hca hcs
            (fun x hx => schemeChar_ne_colon (List.all_eq_true.mp hcs x hx))]
          rw [← hsc, hlow]
        have hnet : parseNetloc ('/' :: '/' :: ('/' :: p)) = ([], '/' :: p) := by
          have h0 := parseNetloc_yes [] ('/' :: p) (by simp)
            (Or.inr ⟨'/', p, rfl, by decide⟩)
          simpa using h0
        have hsplit := urlsplit_parts hsan hdet hnet (splitHash_no hB1)
          (splitQm_no hB2)
        rw [if_neg hschNe] at hsplit
        rw [hO, stripUrl_eq hsplit hB3 hBstrip]
        have hBtake : ('/' :: p).take 2 ≠ ['/', '/'] := by
          rw [hq]
          intro hc
          injection hc with _ h2
          injection h2 with h2 _
          exact hqne h2
        rw [unsplit_netloc (Or.inr ⟨hschNe, hun, hBtake⟩)]
        rw [if_neg (by intro hc; exact hc.2 rfl)]
        simp
      · -- no `/` prepended: the path is empty or already starts with `/`
        have hif : (if p ≠ [] ∧ p.take 1 ≠ ['/'] then '/' :: p else p) = p :=
          if_neg hpre
        have hpshape : p = [] ∨ ∃ t, p = '/' :: t := by
          by_cases hpn : p = []
          · exact Or.inl hpn
          · right
            cases hc : p with
            | nil => exact absurd hc hpn
            | cons q qt =>
              refine ⟨qt, ?_⟩
              have hq1 : p.take 1 = ['/'] := by
                by_contra hq1
                exact hpre ⟨hpn, hq1⟩
              rw [hc] at hq1
              injection hq1 with h1 _
              rw [h1]
        have hO : pyUrlunsplit sch [] p [] [] =
            schemePart sch ('/' :: '/' :: p) := by
          rw [unsplit_netloc (Or.inr ⟨hschNe, hun, htake⟩), hif]
          rfl
        have hsan : sanitizeUrl (schemePart sch ('/' :: '/' :: p)) =
            schemePart sch ('/' :: '/' :: p) := by
          apply sanitize_fix
          · intro x hx
            unfold schemePart at hx
            rw [if_pos hschNe] at hx
            rcases List.mem_append.mp hx with hx | hx
            · exact hschClean x hx
            · rcases List.mem_cons.mp hx with rfl | hx
              · decide
              · rcases List.mem_cons.mp hx with rfl | hx
                · decide
                · rcases List.mem_cons.mp hx with rfl | hx
                  · decide
                  · exact hpClean x hx
          · intro x t heq
            unfold schemePart at heq
            rw [if_pos hschNe, hsc] at heq
            injection heq with h1 _
            rw [← h1]
            exact alpha_not_c0 hca
        have hdet : detectScheme (schemePart sch ('/' :: '/' :: p)) =
            (sch, '/' :: '/' :: p) := by
          unfold schemePart
          rw [if_pos hschNe, hsc]
          rw [detect_success hca hcs
            (fun x hx => schemeChar_ne_colon (List.all_eq_true.mp hcs x hx))]
          rw [← hsc, hlow]
        have hnet : parseNetloc ('/' :: '/' :: p) = ([], p) := by
          have h0 := parseNetloc_yes [] p (by simp)
            (by
              rcases hpshape with rfl | ⟨t, rfl⟩
              · exact Or.inl rfl
              · exact Or.inr ⟨'/', t, rfl, by decide⟩)
          simpa using h0
        have hsplit := urlsplit_parts hsan hdet hnet (splitHash_no hp1)
          (splitQm_no hp2)
        rw [if_neg hschNe] at hsplit
        rw [hO, stripUrl_eq hsplit hpsemi hstr]
        rw [unsplit_netloc (Or.inr ⟨hschNe, hun, htake⟩), hif]
        rfl
    · -- no netloc marker: the output is `scheme:path` or just `path`
      have hnc : ¬(([] : List Char) ≠ [] ∨ (sch ≠ [] ∧ sch ∈ usesNetloc ∧
          p.take 2 ≠ ['/', '/'])) := by
        rintro (hc | ⟨h1, h2, _⟩)
        · exact hc rfl
        · exact hcond ⟨h1, h2⟩
      have hO : pyUrlunsplit sch [] p [] [] = schemePart sch p :=
        unsplit_no_netloc hnc
      rcases hsch with hschE | ⟨c, cs, hsc, hca, hcs, hlow⟩
      · -- no scheme either: the output is the path itself
        subst hschE
        have hO2 : schemePart [] p = p := by
          unfold schemePart
          simp
        have hsan : sanitizeUrl p = p :=
          sanitize_fix hpClean (hp5 rfl rfl)
        have hdet := hp4 rfl rfl
        have hnet := parseNetloc_no (hp6 rfl)
        have hsplit := urlsplit_parts hsan hdet hnet (splitHash_no hp1)
          (splitQm_no hp2)
        rw [if_pos rfl] at hsplit
        rw [hO, hO2, stripUrl_eq hsplit hpsemi hstr, unsplit_no_netloc hnc, hO2]
      · -- scheme present but outside uses_netloc
        have hschNe : sch ≠ [] := by
          rw [hsc]
          simp
        have hun : sch ∉ usesNetloc := fun hB => hcond ⟨hschNe, hB⟩
        have hsan : sanitizeUrl (schemePart sch p) = schemePart sch p := by
          apply sanitize_fix
          · intro x hx
            unfold schemePart at hx
            rw [if_pos hschNe] at hx
            rcases List.mem_append.mp hx with hx | hx
            · exact hschClean x hx
            · rcases List.mem_cons.mp hx with rfl | hx
              · decide
              · exact hpClean x hx
          · intro x t heq
            unfold schemePart at heq
            rw [if_pos hschNe, hsc] at heq
            injection heq with h1 _
            rw [← h1]
            exact alpha_not_c0 hca
        have hdet : detectScheme (schemePart sch p) = (sch, p) := by
          unfold schemePart
          rw [if_pos hschNe, hsc]
          rw [detect_success hca hcs
            (fun x hx => schemeChar_ne_colon (List.all_eq_true.mp hcs x hx))]
          rw [← hsc, hlow]
        have hnet := parseNetloc_no (hp6 rfl)
        have hsplit := urlsplit_parts hsan hdet hnet (splitHash_no hp1)
          (splitQm_no hp2)
        rw [if_neg hschNe] at hsplit
        rw [hO, stripUrl_eq hsplit hpsemi hstr, unsplit_no_netloc hnc]
  · -- non-empty netloc: the output is `[scheme:]//netloc path`
    have hpshape := hp3 hnlE
    have hif : (if p ≠ [] ∧ p.take 1 ≠ ['/'] then '/' :: p else p) = p := by
      rcases hpshape with rfl | ⟨t, rfl⟩
      · simp
      · rw [if_neg]
        rintro ⟨-, hc⟩
        exact hc rfl
    have hO : pyUrlunsplit sch nl p [] [] =
        schemePart sch ('/' :: '/' :: (nl ++ p)) := by
      rw [unsplit_netloc (Or.inl hnlE), hif]
    have hnet : parseNetloc ('/' :: '/' :: (nl ++ p)) = (nl, p) :=
      parseNetloc_yes nl p hnl
        (by
          rcases hpshape with rfl | ⟨t, rfl⟩
          · exact Or.inl rfl
          · exact Or.inr ⟨'/', t, rfl, by decide⟩)
    have hRclean : ∀ x ∈ '/' :: '/' :: (nl ++ p), isUnsafeUrlByte x = false := by
      intro x hx
      rcases List.mem_cons.mp hx with rfl | hx
      · decide
      · rcases List.mem_cons.mp hx with rfl | hx
        · decide
        · rcases List.mem_append.mp hx with hx | hx
          · exact hnlClean x hx
          · exact hpClean x hx
    rcases hsch with hschE | ⟨c, cs, hsc, hca, hcs, hlow⟩
    · subst hschE
      have hO2 : schemePart [] ('/' :: '/' :: (nl ++ p)) =
          '/' :: '/' :: (nl ++ p) := by
        unfold schemePart
        simp
      have hsan : sanitizeUrl ('/' :: '/' :: (nl ++ p)) =
          '/' :: '/' :: (nl ++ p) := by
        apply sanitize_fix hRclean
        intro x t heq
        injection heq with h1 _
        rw [← h1]
        decide
      have hdet : detectScheme ('/' :: '/' :: (nl ++ p)) =
          ([], '/' :: '/' :: (nl ++ p)) :=
        detect_head_nonalpha (by decide)
      have hsplit := urlsplit_parts hsan hdet hnet (splitHash_no hp1)
        (splitQm_no hp2)
      rw [if_pos rfl] at hsplit
      rw [hO, hO2, stripUrl_eq hsplit hpsemi hstr, unsplit_netloc (Or.inl hnlE),
        hif, hO2]
    · have hschNe : sch ≠ [] := by
        rw [hsc]
        simp
      have hsan : sanitizeUrl (schemePart sch ('/' :: '/' :: (nl ++ p))) =
          schemePart sch ('/' :: '/' :: (nl ++ p)) := by
        apply sanitize_fix
        · intro x hx
          unfold schemePart at hx
          rw [if_pos hschNe] at hx
          rcases List.mem_append.mp hx with hx | hx
          · exact hschClean x hx
          · rcases List.mem_cons.mp hx with rfl | hx
            · decide
            · exact hRclean x hx
        · intro x t heq
          unfold schemePart at heq
          rw [if_pos hschNe, hsc] at heq
          injection heq with h1 _
          rw [← h1]
          exact alpha_not_c0 hca
      have hdet : detectScheme (schemePart sch ('/' :: '/' :: (nl ++ p))) =
          (sch, '/' :: '/' :: (nl ++ p)) := by
        unfold schemePart
        rw [if_pos hschNe, hsc]
        rw [detect_success hca hcs
          (fun x hx => schemeChar_ne_colon (List.all_eq_true.mp hcs x hx))]
        rw [← hsc, hlow]
      have hsplit := urlsplit_parts hsan hdet hnet (splitHash_no hp1)
        (splitQm_no hp2)
      rw [if_neg hschNe] at hsplit
      rw [hO, stripUrl_eq hsplit hpsemi hstr, unsplit_netloc (Or.inl hnlE), hif]

/-! Bridging lemmas from the first parse to `strip_build_idem`. -/

theorem mem_sanitize_sub {u : List Char} {x : Char} (h : x ∈ sanitizeUrl u) :
    x ∈ u := by
  unfold sanitizeUrl removeUnsafe at h
  exact mem_dropWhile_sub (List.mem_filter.mp h).1

theorem rstrip_app (l : List Char) : ∃ t2, pyRstripSlash l ++ t2 = l := by
  refine ⟨(l.reverse.takeWhile (· == '/')).reverse, ?_⟩
  unfold pyRstripSlash
  have h1 : l.reverse.takeWhile (· == '/') ++ l.reverse.dropWhile (· == '/') =
      l.reverse := List.takeWhile_append_dropWhile _ _
  have h2 := congrArg List.reverse h1
  simp only [List.reverse_append, List.reverse_reverse] at h2
  exact h2

theorem mem_rstrip_sub {l : List Char} {x : Char} (h : x ∈ pyRstripSlash l) :
    x ∈ l := by
  obtain ⟨t2, ht⟩ := rstrip_app l
  rw [← ht]
  exact List.mem_append.mpr (Or.inl h)

theorem take2_of_app {p q : List Char} (h : ∃ t2, p ++ t2 = q)
    (hq : q.take 2 ≠ ['/', '/']) : p.take 2 ≠ ['/', '/'] := by
  obtain ⟨t2, rfl⟩ := h
  intro hc
  apply hq
  cases p with
  | nil => exact absurd hc (by simp)
  | cons a p1 =>
    cases p1 with
    | nil => exact absurd hc (by simp)
    | cons b p2 =>
      injection hc with h1 hc
      injection hc with h2 _
      rw [h1, h2]
      rfl

theorem take2_shape {l : List Char} (h : l.take 2 = ['/', '/']) :
    ∃ r, l = '/' :: '/' :: r := by
  cases l with
  | nil => exact absurd h (by simp)
  | cons a l1 =>
    cases l1 with
    | nil => exact absurd h (by simp)
    | cons b l2 =>
      injection h with h1 h
      injection h with h2 _
      rw [h1, h2]
      exact ⟨l2, rfl⟩

theorem app_trans {x y z : List Char} (h1 : ∃ a, x ++ a = y)
    (h2 : ∃ b, y ++ b = z) : ∃ c, x ++ c = z := by
  obtain ⟨a, rfl⟩ := h1
  obtain ⟨b, rfl⟩ := h2
  exact ⟨a ++ b, by simp⟩

theorem takeWhile_app (pr : Char → Bool) (l : List Char) :
    ∃ t, l.takeWhile pr ++ t = l :=
  ⟨l.dropWhile pr, List.takeWhile_append_dropWhile _ _⟩

/-- `stripUrl_eq` generalised to inputs whose parse has query or fragment. -/
theorem stripUrl_eq_general {O sch1 n0 p2 q2 f2 : List Char}
    (hsplit : pyUrlsplitD [] O = ⟨sch1, n0, p2, q2, f2⟩)
    (hsemi : ';' ∉ p2) :
    stripUrlL O = pyUrlunsplit sch1 n0
      (if p2 = ['/'] then p2 else pyRstripSlash p2) [] [] := by
  unfold stripUrlL pyUrlparse pyUrlparseD pyParseStage pyUrlunparse
  rw [hsplit, if_neg (fun hc => hsemi hc.2)]
  simp only []
  rw [if_neg (by simp)]

/-- Variant of `urlsplit_parts` for a raw (unsanitised) input. -/
theorem urlsplit_parts' {u r0 sch0 n0 r1 p3 f2 p2 q2 : List Char}
    (hdet : detectScheme (sanitizeUrl u) = (sch0, r0))
    (hnet : parseNetloc r0 = (n0, r1))
    (hhash : splitHash r1 = (p3, f2))
    (hqm : splitQm p3 = (p2, q2)) :
    pyUrlsplitD [] u = ⟨if sch0 = [] then [] else sch0, n0, p2, q2, f2⟩ := by
  unfold pyUrlsplitD pyUrlsplitStages
  rw [hdet]
  simp only [hnet, hhash, hqm]

/-- Assembly of the idempotence proof from the facts the first parse of `u`
provides about its scheme, netloc and the remainder `u2` of the URL. -/
theorem stripUrl_idem_assemble (u sch0 nl u2 : List Char)
    (hsch : sch0 = [] ∨ ∃ c cs, sch0 = c :: cs ∧ isAsciiAlpha c = true ∧
        (c :: cs).all schemeChar = true ∧ lowerL sch0 = sch0)
    (hschClean : ∀ c ∈ sch0, isUnsafeUrlByte c = false)
    (hsemi : ';' ∉ u)
    (hloc : (pyUrlparse u).netloc = [] → (pyUrlparse u).path.take 2 ≠ ['/', '/'])
    (hsplit : pyUrlsplitD [] u =
      ⟨sch0, nl, (splitQm (splitHash u2).1).1, (splitQm (splitHash u2).1).2,
       (splitHash u2).2⟩)
    (hnlmem : ∀ x ∈ nl, x ∈ sanitizeUrl u)
    (hnl : ∀ c ∈ nl, netlocDelim c = false)
    (hu2mem : ∀ x ∈ u2, x ∈ sanitizeUrl u)
    (hu2sh : nl ≠ [] → u2 = [] ∨ ∃ y ys, u2 = y :: ys ∧ netlocDelim y = true)
    (hp45 : sch0 = [] → nl = [] →
      (u2 = sanitizeUrl u ∧
        detectScheme (sanitizeUrl u) = ([], sanitizeUrl u)) ∨
      (u2 = [] ∨ ∃ y ys, u2 = y :: ys ∧ netlocDelim y = true)) :
    stripUrlL (stripUrlL u) = stripUrlL u := by
  have hsclean : ∀ c ∈ sanitizeUrl u, isUnsafeUrlByte c = false := sanitize_clean
  have hssemi : ';' ∉ sanitizeUrl u := fun hc => hsemi (mem_sanitize_sub hc)
  obtain ⟨path1, hp1eq⟩ : ∃ w, w = (splitQm (splitHash u2).1).1 := ⟨_, rfl⟩
  rw [← hp1eq] at hsplit
  have hp1tw : path1 =
      (u2.takeWhile (fun x => x != '#')).takeWhile (fun x => x != '?') := hp1eq
  have hp1mem : ∀ x ∈ path1, x ∈ u2 := by
    rw [hp1tw]
    intro x hx
    exact mem_takeWhile_sub (mem_takeWhile_sub hx)
  have hpath1nohash : '#' ∉ path1 := by
    rw [hp1tw]
    intro hc
    have h1 := mem_takeWhile_sub hc
    have h2 := List.mem_takeWhile_imp h1
    simp at h2
  have hpath1noqm : '?' ∉ path1 := by
    rw [hp1tw]
    intro hc
    have h2 := List.mem_takeWhile_imp hc
    simp at h2
  have hpath1pfx : ∃ t2, path1 ++ t2 = u2 := by
    rw [hp1tw]
    exact app_trans (takeWhile_app _ _) (takeWhile_app _ _)
  have hu2empty : u2 = [] → path1 = [] := by
    intro h
    rw [hp1tw, h]
    rfl
  have hpath1sh : (∃ y ys, u2 = y :: ys ∧ netlocDelim y = true) →
      path1 = [] ∨ ∃ t2, path1 = '/' :: t2 := by
    rintro ⟨y, ys, hu2f, hy⟩
    have hy3 : y = '/' ∨ y = '?' ∨ y = '#' := by
      simpa [netlocDelim, or_assoc] using hy
    rcases hy3 with rfl | rfl | rfl
    · right
      rw [hp1tw, hu2f,
        List.takeWhile_cons_of_pos (p := fun x => x != '#') (by decide),
        List.takeWhile_cons_of_pos (p := fun x => x != '?') (by decide)]
      exact ⟨_, rfl⟩
    · left
      rw [hp1tw, hu2f,
        List.takeWhile_cons_of_pos (p := fun x => x != '#') (by decide),
        List.takeWhile_cons_of_neg (p := fun x => x != '?') (by decide)]
    · left
      rw [hp1tw, hu2f,
        List.takeWhile_cons_of_neg (p := fun x => x != '#') (by decide)]
      rfl
  obtain ⟨p, hpeq⟩ : ∃ w,
      w = (if path1 = ['/'] then path1 else pyRstripSlash path1) := ⟨_, rfl⟩
  have hppfx : ∃ t2, p ++ t2 = path1 := by
    rw [hpeq]
    by_cases h : path1 = ['/']
    · rw [if_pos h]
      exact ⟨[], List.append_nil _⟩
    · rw [if_neg h]
      exact rstrip_app path1
  have hmemP : ∀ x ∈ p, x ∈ path1 := by
    obtain ⟨t2, ht⟩ := hppfx
    intro x hx
    rw [← ht]
    exact List.mem_append.mpr (Or.inl hx)
  have hpnil_of : path1 = [] → p = [] := by
    intro h
    rw [hpeq, h]
    decide
  have hpsh : (path1 = [] ∨ ∃ t2, path1 = '/' :: t2) →
      (p = [] ∨ ∃ t2, p = '/' :: t2) := by
    rintro (h | ⟨t2, h⟩)
    · exact Or.inl (hpnil_of h)
    · obtain ⟨ext, hext⟩ := hppfx
      cases hc : p with
      | nil => exact Or.inl rfl
      | cons a as =>
        right
        refine ⟨as, ?_⟩
        rw [hc, h] at hext
        injection hext with h1 _
        rw [h1]
  have hstr' : (if p = ['/'] then p else pyRstripSlash p) = p := by
    rw [hpeq]
    exact pathStrip_idem path1
  have hpclean : ∀ c ∈ p, isUnsafeUrlByte c = false :=
    fun c hc => hsclean c (hu2mem c (hp1mem c (hmemP c hc)))
  have hpno1 : '#' ∉ p := fun hc => hpath1nohash (hmemP _ hc)
  have hpno2 : '?' ∉ p := fun hc => hpath1noqm (hmemP _ hc)
  have hpsemiPath1 : ';' ∉ path1 := fun hc => hssemi (hu2mem _ (hp1mem _ hc))
  have hpsemi' : ';' ∉ p := fun hc => hpsemiPath1 (hmemP _ hc)
  have hparse : pyUrlparse u = ⟨sch0, nl, path1, [],
      (splitQm (splitHash u2).1).2, (splitHash u2).2⟩ := by
    unfold pyUrlparse pyUrlparseD pyParseStage
    rw [hsplit, if_neg (fun hc => hpsemiPath1 hc.2)]
  have hstripU : stripUrlL u = pyUrlunsplit sch0 nl p [] [] := by
    rw [hpeq]
    exact stripUrl_eq_general hsplit hpsemiPath1
  have hp6' : nl = [] → p.take 2 ≠ ['/', '/'] := by
    intro hnlE
    apply take2_of_app hppfx
    have h0 : (pyUrlparse u).netloc = [] := by
      rw [hparse]
      exact hnlE
    have h1 := hloc h0
    rw [hparse] at h1
    exact h1
  have hp3' : nl ≠ [] → p = [] ∨ ∃ t2, p = '/' :: t2 := by
    intro hne
    rcases hu2sh hne with h | h
    · exact Or.inl (hpnil_of (hu2empty h))
    · exact hpsh (hpath1sh h)
  have hp4' : sch0 = [] → nl = [] → detectScheme p = ([], p) := by
    intro hs0 hnlE
    rcases hp45 hs0 hnlE with ⟨hu2eq, hdf⟩ | hsh
    · apply detect_fail_pfx hdf
      exact app_trans hppfx (hu2eq ▸ hpath1pfx)
    · rcases hsh with h | h
      · rw [hpnil_of (hu2empty h)]
        exact detect_nil
      · rcases hpsh (hpath1sh h) with hpnil | ⟨t2, hpt⟩
        · rw [hpnil]
          exact detect_nil
        · rw [hpt]
          exact detect_head_nonalpha (by decide)
  have hp5' : sch0 = [] → nl = [] → ∀ x t, p = x :: t →
      isC0OrSpace x = false := by
    intro hs0 hnlE x t hxt
    rcases hp45 hs0 hnlE with ⟨hu2eq, _⟩ | hsh
    · obtain ⟨ext, hext⟩ := app_trans hppfx (hu2eq ▸ hpath1pfx)
      rw [hxt] at hext
      have hsx : sanitizeUrl u = x :: (t ++ ext) := by
        rw [← hext]
        exact List.cons_append x t ext
      exact sanitize_head_c0 hsx
    · rcases hsh with h | h
      · have hpnil := hpnil_of (hu2empty h)
        rw [hpnil] at hxt
        exact absurd hxt (by simp)
      · rcases hpsh (hpath1sh h) with hpnil | ⟨t2, hpt⟩
        · rw [hpnil] at hxt
          exact absurd hxt (by simp)
        · rw [hpt] at hxt
          injection hxt with h1 _
          rw [← h1]
          decide
  have hmain := strip_build_idem sch0 nl p hschClean hsch
    (fun c hc => hsclean c (hnlmem c hc)) hpclean hnl hpno1 hpno2 hpsemi'
    hp3' hp4' hp5' hp6' hstr'
  rw [hstripU, hmain]

/-- Netloc-branch dispatch of the idempotence proof: from the scheme-detection
result on the sanitised input, both branches of `parseNetloc` reduce to
`stripUrl_idem_assemble`. -/
theorem stripUrl_idem_core (u sch0 u1 : List Char)
    (hdet2 : detectScheme (sanitizeUrl u) = (sch0, u1))
    (hsch : sch0 = [] ∨ ∃ c cs, sch0 = c :: cs ∧ isAsciiAlpha c = true ∧
        (c :: cs).all schemeChar = true ∧ lowerL sch0 = sch0)
    (hschClean : ∀ c ∈ sch0, isUnsafeUrlByte c = false)
    (hu1fail : sch0 = [] → u1 = sanitizeUrl u)
    (hu1sub : ∀ x ∈ u1, x ∈ sanitizeUrl u)
    (hsemi : ';' ∉ u)
    (hloc : (pyUrlparse u).netloc = [] →
      (pyUrlparse u).path.take 2 ≠ ['/', '/']) :
    stripUrlL (stripUrlL u) = stripUrlL u := by
  have hif0 : (if sch0 = [] then ([] : List Char) else sch0) = sch0 := by
    by_cases h : sch0 = []
    · rw [if_pos h, h]
    · rw [if_neg h]
  by_cases hnb : u1.take 2 = ['/', '/']
  · obtain ⟨rest0, hu1form⟩ := take2_shape hnb
    have hnet : parseNetloc u1 =
        (rest0.takeWhile (fun c => !netlocDelim c),
         rest0.dropWhile (fun c => !netlocDelim c)) := by
      rw [hu1form]
      unfold parseNetloc
      rw [if_pos (show List.take 2 ('/' :: '/' :: rest0) = ['/', '/'] from rfl)]
      simp only [List.drop_succ_cons, List.drop_zero]
    have hsplit := urlsplit_parts' hdet2 hnet rfl rfl
    rw [hif0] at hsplit
    have hu2shape : rest0.dropWhile (fun c => !netlocDelim c) = [] ∨
        ∃ y ys, rest0.dropWhile (fun c => !netlocDelim c) = y :: ys ∧
          netlocDelim y = true := by
      cases hc : rest0.dropWhile (fun c => !netlocDelim c) with
      | nil => exact Or.inl rfl
      | cons y ys =>
        refine Or.inr ⟨y, ys, rfl, ?_⟩
        have h0 := @dropWhile_head_false (fun c => !netlocDelim c) rest0 y ys hc
        simpa using h0
    exact stripUrl_idem_assemble u sch0
      (rest0.takeWhile (fun c => !netlocDelim c))
      (rest0.dropWhile (fun c => !netlocDelim c))
      hsch hschClean hsemi hloc hsplit
      (fun x hx => hu1sub x (by
        rw [hu1form]
        exact List.mem_cons.mpr (Or.inr (List.mem_cons.mpr
          (Or.inr (mem_takeWhile_sub hx))))))
      (fun c hc => by simpa using List.mem_takeWhile_imp hc)
      (fun x hx => hu1sub x (by
        rw [hu1form]
        exact List.mem_cons.mpr (Or.inr (List.mem_cons.mpr
          (Or.inr (mem_dropWhile_sub hx))))))
      (fun _ => hu2shape)
      (fun _ _ => Or.inr hu2shape)
  · have hsplit := urlsplit_parts' hdet2 (parseNetloc_no hnb) rfl rfl
    rw [hif0] at hsplit
    exact stripUrl_idem_assemble u sch0 [] u1
      hsch hschClean hsemi hloc hsplit
      (fun x hx => absurd hx (List.not_mem_nil x))
      (fun c hc => absurd hc (List.not_mem_nil c))
      hu1sub
      (fun h => absurd rfl h)
      (fun hs0 _ => Or.inl ⟨hu1fail hs0, by rw [hdet2, hs0, hu1fail hs0]⟩)

/-- List-level idempotence of `strip_url` under the amended hypotheses: the
input contains no `;`, and when its parse has an empty netloc its path does
not start with `//`. -/
theorem stripUrlL_idem (u : List Char) (hsemi : ';' ∉ u)
    (hloc : (pyUrlparse u).netloc = [] →
      (pyUrlparse u).path.take 2 ≠ ['/', '/']) :
    stripUrlL (stripUrlL u) = stripUrlL u := by
  rcases detect_cases (sanitizeUrl u) with hdet |
    ⟨c, cs, t, hsform, hdet, hca, hcs, hnc⟩
  · exact stripUrl_idem_core u [] (sanitizeUrl u) hdet (Or.inl rfl)
      (fun c hc => absurd hc (List.not_mem_nil c))
      (fun _ => rfl) (fun x hx => hx) hsemi hloc
  · have hschform : ∃ c2 cs2, lowerL (c :: cs) = c2 :: cs2 ∧
        isAsciiAlpha c2 = true ∧ (c2 :: cs2).all schemeChar = true ∧
        lowerL (lowerL (c :: cs)) = lowerL (c :: cs) :=
      ⟨c.toLower, lowerL cs, rfl, isAsciiAlpha_toLower hca,
       lowerL_all_schemeChar hcs, lowerL_lowerL _⟩
    have hclean : ∀ ch ∈ lowerL (c :: cs), isUnsafeUrlByte ch = false := by
      apply lowerL_clean
      intro ch hch
      apply sanitize_clean
      rw [hsform]
      exact List.mem_append.mpr (Or.inl hch)
    have hu1sub : ∀ x ∈ t, x ∈ sanitizeUrl u := by
      intro x hx
      rw [hsform]
      exact List.mem_append.mpr (Or.inr (List.mem_cons.mpr (Or.inr hx)))
    have hfail : lowerL (c :: cs) = [] → t = sanitizeUrl u := by
      intro hc2
      exact absurd hc2 (by simp [lowerL])
    exact stripUrl_idem_core u (lowerL (c :: cs)) t hdet (Or.inr hschform)
      hclean hfail hu1sub hsemi hloc

/-- C6 counterexample: `strip_url` is not idempotent.  Python splits `;params`
off the last path segment only when the segment contains a `;`; stripping the
trailing slash of `/a/;b/` moves `;b` into the last segment, so a second pass
re-parses it as params and rebuilds a different URL (`/a;b`), exactly as
CPython 3.11's `urlparse`/`urlunparse` do. -/
theorem c6_counterexample :
    strip_url (strip_url "https://www.noracooks.com/a/;b/") ≠
      strip_url "https://www.noracooks.com/a/;b/" := by decide

/-- C6 (amended): `strip_url` is idempotent for every URL that contains no
`;` (so no `;params` can be split off any path segment on a re-parse) and
whose parsed path does not begin with `//` when the parsed netloc is empty
(otherwise rebuilding turns the path head into a netloc marker).  All URLs
the handler actually normalises — absolute `http(s)` recipe links — satisfy
both hypotheses. -/
theorem c6_strip_url_idempotent (u : String) (hsemi : ';' ∉ u.data)
    (hloc : (pyUrlparse u.data).netloc = [] →
      (pyUrlparse u.data).path.take 2 ≠ ['/', '/']) :
    strip_url (strip_url u) = strip_url u := by
  have h := stripUrlL_idem u.data hsemi hloc
  show (⟨stripUrlL (stripUrlL u.data)⟩ : String) = ⟨stripUrlL u.data⟩
  rw [h]

/-- Witness for the amended C6 theorem at a concrete recipe URL with a query,
a fragment and a trailing slash. -/
theorem c6_strip_url_idempotent_witness :
    strip_url (strip_url "https://www.noracooks.com/vegan-chili/?utm=1#x") =
      strip_url "https://www.noracooks.com/vegan-chili/?utm=1#x" :=
  c6_strip_url_idempotent "https://www.noracooks.com/vegan-chili/?utm=1#x"
    (by decide) (by decide)

end WeeklyRecipes
